import Mathlib

/-!
Verification of the dependency-graph query engine and the cache-aware
installation pipeline of the ragu package manager, against a shallow
embedding of the Rust sources (src/src/registry, src/src/install).
-/

namespace Ragu

/-- Package names are opaque case-sensitive strings
(src/src/registry/types.rs, `PackageName`). -/
abbrev PackageName := String

/-- A remote package-set package (src/src/registry/types.rs, `PackageSetPackage`). -/
structure PackageSetPackage where
  name : PackageName
  dependencies : List PackageName
  repo : String
  version : String
deriving DecidableEq, Repr

/-- A local workspace package (src/src/registry/types.rs, `LocalPackage`). -/
structure LocalPackage where
  name : PackageName
  dependencies : List PackageName
  test_dependencies : List PackageName
  path : String
deriving DecidableEq, Repr

/-- A registry package (src/src/registry/types.rs, `RegistryPackage`). -/
structure RegistryPackage where
  name : PackageName
  version : String
  dependencies : List PackageName
deriving DecidableEq, Repr

/-- The tagged package union (src/src/registry/types.rs, `Package`). -/
inductive Package where
  | Remote (p : PackageSetPackage)
  | Local (p : LocalPackage)
  | Registry (p : RegistryPackage)
deriving DecidableEq, Repr

/-- `Package::name` (src/src/registry/types.rs). -/
def Package.name : Package → PackageName
  | .Remote p => p.name
  | .Local p => p.name
  | .Registry p => p.name

/-- `Package::dependencies` (src/src/registry/types.rs). -/
def Package.dependencies : Package → List PackageName
  | .Remote p => p.dependencies
  | .Local p => p.dependencies
  | .Registry p => p.dependencies

/-- `Package::version` (src/src/registry/types.rs). -/
def Package.version : Package → Option String
  | .Remote p => some p.version
  | .Local _ => none
  | .Registry p => some p.version

/-- `Package::is_local` (src/src/registry/types.rs). -/
def Package.is_local : Package → Bool
  | .Local _ => true
  | _ => false

/-- First-match association-list lookup, the model of `HashMap::get`
(HashMap keys are unique, so first match is the match). -/
def mapGet {β : Type} : List (PackageName × β) → PackageName → Option β
  | [], _ => none
  | (k, v) :: rest, n => if k = n then some v else mapGet rest n

/-- The package set: `PackageSet = HashMap<PackageName, Package>`
(src/src/registry/types.rs), modelled as an association list. -/
abbrev PackageSet := List (PackageName × Package)

/-- `PackageSet::get` / `PackageQuery::get` (src/src/registry/packages.rs). -/
def PackageSet.get (ps : PackageSet) (n : PackageName) : Option Package :=
  mapGet ps n

/-! ## Global package cache (src/src/install/cache.rs) -/

/-- A cache index entry (src/src/install/cache.rs, `CachedPackage`);
`installed_at` is a timestamp, modelled as a natural number. -/
structure CachedPackage where
  name : PackageName
  version : String
  key : String
  cached_path : String
  installed_at : Nat
deriving DecidableEq, Repr

/-- Modelled from the spec: the source forms the cache key as
concat!("spago-rust@", env!("CARGO_PKG_VERSION")); the crate manifest that
carries `CARGO_PKG_VERSION` is not among the sources, so the version literal
is modelled.  The spec only requires that the key "embeds the installing
tool's own version"; every claim uses this constant solely through equality
or inequality with an index entry's stored key. -/
def CARGO_PKG_VERSION : String := "0.1.0"

/-- `CACHE_KEY` (src/src/install/cache.rs:26). -/
def CACHE_KEY : String := "spago-rust@" ++ CARGO_PKG_VERSION

/-- The cache index: `type Index = HashMap<PackageName, CachedPackage>`
(src/src/install/cache.rs:28), modelled as an association list. -/
abbrev Index := List (PackageName × CachedPackage)

/-- `GlobalPackageCache::is_cached` (src/src/install/cache.rs:69-75): the
pure content of the method, over the index that `load_index` returned.
Source: `index.get(name).map(|cached| cached.version == version).unwrap_or(false)`. -/
def is_cached (index : Index) (name : PackageName) (version : String) : Bool :=
  match mapGet index name with
  | some cached => cached.version == version
  | none => false

/-- `GlobalPackageCache::get_cached_path` (src/src/install/cache.rs:78-84).
Source: `index.get(name).filter(|c| c.version == version && c.key == CACHE_KEY).map(|c| c.cached_path.clone())`. -/
def get_cached_path (index : Index) (name : PackageName) (version : String) :
    Option String :=
  (Option.filter (fun cached => cached.version == version && cached.key == CACHE_KEY)
    (mapGet index name)).map (fun cached => cached.cached_path)

/-! ## Claim C2: cache lookup asymmetry -/

/-- C2: for every cache index state, `is_cached(name, version)` is true iff the
index holds an entry for `name` whose version equals the given version,
regardless of the entry's cache-key; `get_cached_path(name, version)` returns a
path iff that entry's version matches and its cache-key equals the running
tool's key; and for an entry with matching version but a different cache-key,
`is_cached` is true while `get_cached_path` returns nothing. -/
theorem C2_cache_lookup_asymmetry :
    (∀ (index : Index) (name : PackageName) (version : String),
      is_cached index name version = true ↔
        ∃ c, mapGet index name = some c ∧ c.version = version) ∧
    (∀ (index : Index) (name : PackageName) (version p : String),
      get_cached_path index name version = some p ↔
        ∃ c, mapGet index name = some c ∧ c.version = version ∧
          c.key = CACHE_KEY ∧ p = c.cached_path) ∧
    (∀ (index : Index) (name : PackageName) (version : String) (c : CachedPackage),
      mapGet index name = some c → c.version = version → c.key ≠ CACHE_KEY →
      is_cached index name version = true ∧
        get_cached_path index name version = none) := by
  refine ⟨?_, ?_, ?_⟩
  · intro index name version
    unfold is_cached
    cases h : mapGet index name with
    | none => simp
    | some c =>
      simp only [beq_iff_eq]
      constructor
      · intro hv; exact ⟨c, rfl, hv⟩
      · rintro ⟨c', hc', hv⟩
        injection hc' with h; subst h; exact hv
  · intro index name version p
    unfold get_cached_path
    cases h : mapGet index name with
    | none => simp
    | some c =>
      simp only [Option.filter, Option.map]
      by_cases hcond : (c.version == version && c.key == CACHE_KEY) = true
      · simp only [hcond, if_true]
        rw [Bool.and_eq_true, beq_iff_eq, beq_iff_eq] at hcond
        constructor
        · intro hp
          injection hp with hp
          exact ⟨c, rfl, hcond.1, hcond.2, hp.symm⟩
        · rintro ⟨c', hc', _, _, hp⟩
          injection hc' with h; subst h; simp [hp]
      · simp only [Bool.not_eq_true] at hcond
        simp only [hcond]
        constructor
        · intro hp; cases hp
        · rintro ⟨c', hc', hv, hk, _⟩
          injection hc' with h; subst h
          rw [Bool.and_eq_false_iff] at hcond
          rcases hcond with hcond | hcond <;>
            simp [hv, hk] at hcond
  · intro index name version c hget hv hk
    constructor
    · unfold is_cached
      rw [hget]
      simp [hv]
    · unfold get_cached_path
      rw [hget]
      simp [Option.filter, hk]

/-- A cache entry whose version matches a query but whose key differs from the
running tool's key (written by another tool version). -/
def staleKeyEntry : CachedPackage :=
  { name := "prelude", version := "v6.0.0", key := "spago-rust@0.0.9"
    cached_path := "/cache/prelude-v6.0.0", installed_at := 0 }

/-- A one-entry cache index holding `staleKeyEntry`. -/
def staleKeyIndex : Index := [("prelude", staleKeyEntry)]

/-- Witness for C2 at a concrete index: the stale-key entry is reported cached
but yields no path. -/
theorem C2_cache_lookup_asymmetry_witness :
    is_cached staleKeyIndex "prelude" "v6.0.0" = true ∧
      get_cached_path staleKeyIndex "prelude" "v6.0.0" = none :=
  C2_cache_lookup_asymmetry.2.2 staleKeyIndex "prelude" "v6.0.0" staleKeyEntry
    (by decide) rfl (by decide)

/-! ## Filesystem model and recursive directory copy (src/src/install/cache.rs) -/

/-- A filesystem tree: a file with contents, or a directory with named entries. -/
inductive FsTree where
  | file (content : String)
  | dir (entries : List (String × FsTree))

/-- Insert-or-replace an entry in a directory listing, the model of writing a
name into a directory: an existing entry of that name is replaced in place and
a fresh name is appended. -/
def insertEntry {β : Type} : List (String × β) → String → β → List (String × β)
  | [], k, v => [(k, v)]
  | (k₀, v₀) :: rest, k, v =>
    if k₀ = k then (k, v) :: rest else (k₀, v₀) :: insertEntry rest k v

/-- Remove a name from a directory listing (`fs::remove_dir_all` on one entry). -/
def eraseEntry {β : Type} (entries : List (String × β)) (k : String) :
    List (String × β) :=
  entries.filter (fun p => p.1 ≠ k)

mutual

/-- `copy_dir_all` (src/src/install/cache.rs:156-174) restricted to one source
entry list, copying into the state of the destination path: a missing
destination is created as an empty directory (`fs::create_dir_all`), an
existing directory is merged into, and an existing plain file makes every
child copy fail (`fs::copy` / `fs::create_dir_all` under a file errors), so a
nonempty source errors while an empty source leaves the file untouched. -/
def copyDirTree (src : List (String × FsTree)) (dst : Option FsTree) :
    Except String FsTree :=
  match dst with
  | some (.file c) =>
    if src.isEmpty then .ok (.file c) else .error "Failed to copy into a file"
  | some (.dir es) => (copyEntries src es).map .dir
  | none => (copyEntries src []).map .dir
termination_by (sizeOf src, 1)

/-- The entry loop of `copy_dir_all`: each source entry is copied into the
accumulated destination listing; files overwrite files and error on a
same-named directory, directories recurse. -/
def copyEntries : List (String × FsTree) → List (String × FsTree) →
    Except String (List (String × FsTree))
  | [], acc => .ok acc
  | (n, .file c) :: rest, acc =>
    match mapGet acc n with
    | some (.dir _) => .error "Failed to copy file"
    | _ => copyEntries rest (insertEntry acc n (.file c))
  | (n, .dir es) :: rest, acc =>
    match copyDirTree es (mapGet acc n) with
    | .error e => .error e
    | .ok t => copyEntries rest (insertEntry acc n t)
termination_by src _ => (sizeOf src, 0)

end

/-- Directory-listing well-formedness: entry names are distinct at every level
(what `fs::read_dir` guarantees for a real directory). -/
def entriesWF : List (String × FsTree) → Bool
  | [] => true
  | (n, .file _) :: rest => (mapGet rest n).isNone && entriesWF rest
  | (n, .dir es) :: rest => (mapGet rest n).isNone && entriesWF es && entriesWF rest
termination_by es => sizeOf es

/-! ## The global cache store and `cache_package` -/

/-- The machine-wide cache: the entries of the cache root directory (one
subdirectory per cached name-version-key triple) plus the index file. -/
structure CacheState where
  store : List (String × FsTree)
  index : Index

/-- `GlobalPackageCache::cache_package` (src/src/install/cache.rs:87-118):
derive the deterministic cached name, remove any existing cached copy, copy
the source directory in, then rewrite the index with the new entry.  `now`
models `chrono::Utc::now()`. -/
def cache_package (st : CacheState) (name : PackageName) (version : String)
    (source : List (String × FsTree)) (now : Nat) :
    Except String (CacheState × String) :=
  let cached_name := name ++ "-" ++ version ++ "-" ++ CACHE_KEY
  let store₁ :=
    if (mapGet st.store cached_name).isSome then eraseEntry st.store cached_name
    else st.store
  match copyDirTree source (mapGet store₁ cached_name) with
  | .error e => .error e
  | .ok t =>
    .ok ({ store := insertEntry store₁ cached_name t
           index := insertEntry st.index name
             { name := name, version := version, key := CACHE_KEY
               cached_path := cached_name, installed_at := now } },
         cached_name)

/-- Looking up the just-inserted key returns the new value. -/
theorem mapGet_insertEntry_self {β : Type} (m : List (PackageName × β))
    (k : String) (v : β) : mapGet (insertEntry m k v) k = some v := by
  induction m with
  | nil => simp [insertEntry, mapGet]
  | cons hd tl ih =>
    obtain ⟨k₀, v₀⟩ := hd
    by_cases h : k₀ = k
    · simp [insertEntry, h, mapGet]
    · simp [insertEntry, h, mapGet, ih]

/-- After erasing a key it is absent. -/
theorem mapGet_eraseEntry_self {β : Type} (m : List (PackageName × β))
    (k : String) : mapGet (eraseEntry m k) k = none := by
  induction m with
  | nil => simp [eraseEntry, mapGet]
  | cons hd tl ih =>
    obtain ⟨k₀, v₀⟩ := hd
    by_cases h : k₀ = k
    · simpa [eraseEntry, h] using ih
    · simpa [eraseEntry, h, mapGet] using ih

/-- A name is absent from a listing iff it is none of its keys. -/
theorem mapGet_eq_none_iff {β : Type} (m : List (PackageName × β)) (k : String) :
    mapGet m k = none ↔ k ∉ m.map Prod.fst := by
  induction m with
  | nil => simp [mapGet]
  | cons hd tl ih =>
    obtain ⟨k₀, v₀⟩ := hd
    by_cases h : k₀ = k
    · simp [mapGet, h]
    · simp [mapGet, h, ih, Ne.symm h]

/-- Inserting an absent name appends it. -/
theorem insertEntry_of_absent {β : Type} (m : List (PackageName × β))
    (k : String) (v : β) (h : mapGet m k = none) :
    insertEntry m k v = m ++ [(k, v)] := by
  induction m with
  | nil => simp [insertEntry]
  | cons hd tl ih =>
    obtain ⟨k₀, v₀⟩ := hd
    by_cases hk : k₀ = k
    · simp [mapGet, hk] at h
    · simp only [mapGet, if_neg hk] at h
      simp [insertEntry, hk, ih h]

/-- Lookup in an appended listing tries the left part first. -/
theorem mapGet_append {β : Type} (a b : List (PackageName × β)) (k : String) :
    mapGet (a ++ b) k =
      match mapGet a k with
      | some v => some v
      | none => mapGet b k := by
  induction a with
  | nil => simp [mapGet]
  | cons hd tl ih =>
    obtain ⟨k₀, v₀⟩ := hd
    by_cases h : k₀ = k
    · simp [mapGet, h]
    · simp [mapGet, h, ih]

/-- Copying a well-formed directory into a destination listing free of the
source's names appends the source entries unchanged. -/
theorem copyEntries_fresh (src : List (String × FsTree)) (hwf : entriesWF src = true)
    (acc : List (String × FsTree))
    (hdisj : ∀ n ∈ src.map Prod.fst, mapGet acc n = none) :
    copyEntries src acc = .ok (acc ++ src) := by
  match src, hwf, hdisj with
  | [], _, _ => simp [copyEntries]
  | (n, t) :: rest, hwf, hdisj =>
    have hn : mapGet acc n = none := hdisj n (by simp)
    have hinsert : insertEntry acc n t = acc ++ [(n, t)] :=
      insertEntry_of_absent acc n t hn
    have hdisj' : ∀ (hnr : mapGet rest n = none),
        ∀ m ∈ rest.map Prod.fst, mapGet (insertEntry acc n t) m = none := by
      intro hnr m hm
      rw [hinsert, mapGet_append, hdisj m (by simp [hm])]
      have hmn : n ≠ m := by
        intro h
        exact (mapGet_eq_none_iff rest n).mp hnr (h ▸ hm)
      simp [mapGet, hmn]
    match t, hwf with
    | .file c, hwf =>
      simp only [entriesWF, Bool.and_eq_true, Option.isNone_iff_eq_none] at hwf
      have hrest :
          copyEntries rest (insertEntry acc n (.file c)) =
            .ok (acc ++ (n, .file c) :: rest) := by
        rw [copyEntries_fresh rest hwf.2 _ (hdisj' hwf.1), hinsert]
        simp
      rw [copyEntries, hn]
      exact hrest
    | .dir es, hwf =>
      simp only [entriesWF, Bool.and_eq_true, Option.isNone_iff_eq_none] at hwf
      have hrest :
          copyEntries rest (insertEntry acc n (.dir es)) =
            .ok (acc ++ (n, .dir es) :: rest) := by
        rw [copyEntries_fresh rest hwf.2 _ (hdisj' hwf.1.1), hinsert]
        simp
      have hes : copyDirTree es (mapGet acc n) = .ok (.dir es) := by
        rw [hn, copyDirTree,
          copyEntries_fresh es hwf.1.2 [] (by intro _ _; simp [mapGet])]
        simp [Except.map]
      rw [copyEntries, hes]
      exact hrest
termination_by sizeOf src
decreasing_by
  all_goals simp_wf
  all_goals omega

/-! ## Claim C6: cache round-trip and full replacement -/

/-- C6: after `cache_package(name, v, dir)` succeeds (which it does whenever the
source directory is a well-formed tree), `is_cached(name, v)` is true and
`get_cached_path(name, v)` returns a path whose directory contents equal those
of `dir`; since the prior state `st` is arbitrary — it may hold a previous copy
under the same deterministic name — the final conjunct states that re-caching
fully replaces the prior copy, leaving no stale file. -/
theorem C6_cache_round_trip :
    ∀ (st : CacheState) (name : PackageName) (version : String)
      (source : List (String × FsTree)) (now : Nat),
      entriesWF source = true →
      ∃ (st' : CacheState) (cached_name : String),
        cache_package st name version source now = .ok (st', cached_name) ∧
        is_cached st'.index name version = true ∧
        get_cached_path st'.index name version = some cached_name ∧
        mapGet st'.store cached_name = some (.dir source) := by
  intro st name version source now hwf
  have hstore₁ :
      mapGet
        (if (mapGet st.store (name ++ "-" ++ version ++ "-" ++ CACHE_KEY)).isSome then
          eraseEntry st.store (name ++ "-" ++ version ++ "-" ++ CACHE_KEY)
         else st.store) (name ++ "-" ++ version ++ "-" ++ CACHE_KEY) = none := by
    by_cases h : (mapGet st.store (name ++ "-" ++ version ++ "-" ++ CACHE_KEY)).isSome
    · simp only [h, if_true]
      exact mapGet_eraseEntry_self st.store _
    · simp only [h, if_false]
      exact Option.not_isSome_iff_eq_none.mp h
  have hcopy : copyDirTree source none = .ok (.dir source) := by
    rw [copyDirTree, copyEntries_fresh source hwf [] (by intro _ _; simp [mapGet])]
    simp [Except.map]
  refine
    ⟨{ store :=
        insertEntry
          (if (mapGet st.store (name ++ "-" ++ version ++ "-" ++ CACHE_KEY)).isSome then
            eraseEntry st.store (name ++ "-" ++ version ++ "-" ++ CACHE_KEY)
           else st.store)
          (name ++ "-" ++ version ++ "-" ++ CACHE_KEY) (.dir source)
       index := insertEntry st.index name
        { name := name, version := version, key := CACHE_KEY
          cached_path := name ++ "-" ++ version ++ "-" ++ CACHE_KEY
          installed_at := now } },
      name ++ "-" ++ version ++ "-" ++ CACHE_KEY, ?_, ?_, ?_, ?_⟩
  · simp only [cache_package, hstore₁, hcopy]
  · rw [is_cached, mapGet_insertEntry_self]
    simp
  · rw [get_cached_path, mapGet_insertEntry_self]
    simp [Option.filter]
  · exact mapGet_insertEntry_self _ _ _

/-- A prior cache state that already holds a (stale) copy of package a at
version 1.0.0 under the current tool's key, plus its index entry. -/
def prevCacheState : CacheState :=
  { store := [("a-1.0.0-" ++ CACHE_KEY, .dir [("stale.txt", .file "old")])]
    index := [("a", { name := "a", version := "1.0.0", key := CACHE_KEY
                      cached_path := "a-1.0.0-" ++ CACHE_KEY, installed_at := 0 })] }

/-- Fresh contents for re-caching package a, without the stale file. -/
def newContents : List (String × FsTree) :=
  [("src", .dir [("Main.purs", .file "module Main")]), ("spago.yaml", .file "cfg")]

/-- Witness for C6: re-caching over an existing copy yields a cached directory
equal to the new source (the stale file is gone). -/
theorem C6_cache_round_trip_witness :
    ∃ (st' : CacheState) (cached_name : String),
      cache_package prevCacheState "a" "1.0.0" newContents 5 = .ok (st', cached_name) ∧
      is_cached st'.index "a" "1.0.0" = true ∧
      get_cached_path st'.index "a" "1.0.0" = some cached_name ∧
      mapGet st'.store cached_name = some (.dir newContents) :=
  C6_cache_round_trip prevCacheState "a" "1.0.0" newContents 5
    (by simp [newContents, entriesWF, mapGet])

/-! ## Per-package install branch structure (src/src/install/manager.rs) -/

/-- Which branch of a per-package install task ran, at the granularity the
claims need. -/
inductive InstallOutcome where
  | skipped
  | fromCache (path : String)
  | fetched
  | failed (msg : String)
deriving DecidableEq, Repr

/-- The cache-check-then-fetch tail shared by `install_registry_package`
(src/src/install/manager.rs:264-272) and `install_git_package`
(src/src/install/manager.rs:392-404): if `is_cached` answers true the task
copies from the cache via `copy_from_cache`
(src/src/install/cache.rs:121-138), which bails with a not-found error when
`get_cached_path` yields no path; only when `is_cached` answers false does the
task fall through to the origin fetch. -/
def cache_or_fetch (index : Index) (name version : String) : InstallOutcome :=
  if is_cached index name version then
    match get_cached_path index name version with
    | some p => .fromCache p
    | none =>
      .failed ("Package " ++ name ++ " version " ++ version ++ " not found in cache")
  else .fetched

/-- `install_registry_package` (src/src/install/manager.rs:245-272) up to the
origin fetch: the already-installed check (`package_dir.exists()` plus
`package_version_matches`; `versionCheck = none` models a failing purs.json
read, which propagates), then `cache_or_fetch`. -/
def install_registry_branch (index : Index) (name version : String)
    (destExists : Bool) (versionCheck : Option Bool) : InstallOutcome :=
  if destExists then
    match versionCheck with
    | none => .failed "Failed to read purs.json file"
    | some true => .skipped
    | some false => cache_or_fetch index name version
  else cache_or_fetch index name version

/-- `install_git_package` (src/src/install/manager.rs:372-404) up to the origin
fetch.  `versionCheck` models `git_version_matches`, which is declared in
src/src/install/git.rs's consumers but absent from the sources; modelled from
the spec: the already-installed check for a repository-sourced package compares
the checked-out ref against the declared tag and can fail while reading the
repository, so it is an `Option Bool` here exactly like the registry check. -/
def install_git_branch (index : Index) (name version : String)
    (destExists : Bool) (versionCheck : Option Bool) : InstallOutcome :=
  if destExists then
    match versionCheck with
    | none => .failed "Failed to check installed git version"
    | some true => .skipped
    | some false => cache_or_fetch index name version
  else cache_or_fetch index name version

/-! ## Claim C10: stale-key cache entry makes the install task fail -/

/-- C10: if the cache index holds an entry for (name, version) whose cache-key
differs from the running tool's key, then a registry or git install task that
is not in the already-installed state takes the cache-hit branch and returns
copy_from_cache's not-found error — it does not fall back to an origin fetch. -/
theorem C10_stale_key_install_error :
    ∀ (index : Index) (name version : String) (destExists : Bool)
      (versionCheck : Option Bool) (c : CachedPackage),
      mapGet index name = some c → c.version = version → c.key ≠ CACHE_KEY →
      (destExists = false ∨ versionCheck = some false) →
      (install_registry_branch index name version destExists versionCheck =
          .failed ("Package " ++ name ++ " version " ++ version ++
            " not found in cache") ∧
        install_registry_branch index name version destExists versionCheck ≠
          .fetched) ∧
      (install_git_branch index name version destExists versionCheck =
          .failed ("Package " ++ name ++ " version " ++ version ++
            " not found in cache") ∧
        install_git_branch index name version destExists versionCheck ≠
          .fetched) := by
  intro index name version destExists versionCheck c hget hv hk hstate
  have hic : is_cached index name version = true := by
    rw [is_cached, hget]; simp [hv]
  have hgc : get_cached_path index name version = none := by
    rw [get_cached_path, hget]; simp [Option.filter, hk]
  have htail : cache_or_fetch index name version =
      .failed ("Package " ++ name ++ " version " ++ version ++
        " not found in cache") := by
    rw [cache_or_fetch, hic, hgc]
    simp
  have h1 : install_registry_branch index name version destExists versionCheck =
      cache_or_fetch index name version := by
    rcases hstate with h | h
    · subst h; simp [install_registry_branch]
    · subst h; cases destExists <;> simp [install_registry_branch]
  have h2 : install_git_branch index name version destExists versionCheck =
      cache_or_fetch index name version := by
    rcases hstate with h | h
    · subst h; simp [install_git_branch]
    · subst h; cases destExists <;> simp [install_git_branch]
  rw [h1, h2, htail]
  exact ⟨⟨rfl, fun h => InstallOutcome.noConfusion h⟩,
    rfl, fun h => InstallOutcome.noConfusion h⟩

/-- Witness for C10 at the concrete stale-key index: with no destination
directory present, both task kinds report the cache not-found error. -/
theorem C10_stale_key_install_error_witness :
    install_registry_branch staleKeyIndex "prelude" "v6.0.0" false none =
        .failed "Package prelude version v6.0.0 not found in cache" ∧
      install_git_branch staleKeyIndex "prelude" "v6.0.0" false none =
        .failed "Package prelude version v6.0.0 not found in cache" :=
  ⟨(C10_stale_key_install_error staleKeyIndex "prelude" "v6.0.0" false none
      staleKeyEntry (by decide) rfl (by decide) (Or.inl rfl)).1.1,
   (C10_stale_key_install_error staleKeyIndex "prelude" "v6.0.0" false none
      staleKeyEntry (by decide) rfl (by decide) (Or.inl rfl)).2.1⟩

/-! ## Closure computation (src/src/install/manager.rs:196-222) -/

/-- `HashSet::insert`, modelled on membership lists. -/
def hashInsert (s : List PackageName) (n : PackageName) : List PackageName :=
  if n ∈ s then s else n :: s

mutual

/-- `InstallManager::collect_dependencies_recursive`
(src/src/install/manager.rs:196-222): skip an already-processed name, mark the
name processed, fail terminally if it is absent from the package set, recurse
into its dependencies first, then add the name to the result set.  The state
is (all_packages, processed); `fuel` bounds the recursion depth and the outer
`none` means the fuel ran out (ruled out below for `collectFuel`). -/
def collect_dependencies_recursive (fuel : Nat) (ps : PackageSet)
    (package_name : PackageName) (all_packages processed : List PackageName) :
    Option (Except String (List PackageName × List PackageName)) :=
  match fuel with
  | 0 => none
  | fuel + 1 =>
    if package_name ∈ processed then some (.ok (all_packages, processed))
    else
      match ps.get package_name with
      | none =>
        some (.error ("Package '" ++ package_name ++ "' not found in package set"))
      | some package =>
        match collect_deps_list fuel ps package.dependencies all_packages
            (hashInsert processed package_name) with
        | none => none
        | some (.error e) => some (.error e)
        | some (.ok (a, p)) => some (.ok (hashInsert a package_name, p))
termination_by (fuel, 0)

/-- The `for dep_name in package.dependencies()` loop of
`collect_dependencies_recursive`, and also the driver loop over the direct
dependencies in `install_packages` (src/src/install/manager.rs:121-129):
visit each name in order, threading the state, with `?`-propagation of the
first error. -/
def collect_deps_list (fuel : Nat) (ps : PackageSet) (deps : List PackageName)
    (all_packages processed : List PackageName) :
    Option (Except String (List PackageName × List PackageName)) :=
  match deps with
  | [] => some (.ok (all_packages, processed))
  | d :: rest =>
    match collect_dependencies_recursive fuel ps d all_packages processed with
    | none => none
    | some (.error e) => some (.error e)
    | some (.ok (a, p)) => collect_deps_list fuel ps rest a p
termination_by (fuel, deps.length + 1)

end

/-- Every name that can appear in a processed set during a walk over `ps`
except the walk's roots: the keys and every dependency name mentioned. -/
def psUniverse (ps : PackageSet) : List PackageName :=
  ps.map Prod.fst ++ (ps.map (fun kv => kv.2.dependencies)).flatten

/-- Fuel sufficient for any closure walk over `ps` (one level per first visit
of a universe name, plus one for the root level). -/
def collectFuel (ps : PackageSet) : Nat := (psUniverse ps).toFinset.card + 1

/-- The closure walk the install manager performs over its direct dependency
names (src/src/install/manager.rs:121-129), starting from empty sets. -/
def collect_all (ps : PackageSet) (directDeps : List PackageName) :
    Option (Except String (List PackageName × List PackageName)) :=
  collect_deps_list (collectFuel ps) ps directDeps [] []

/-- The single-level dependency expansion relation: `b` is a listed dependency
of the present package `a`. -/
def depStep (ps : PackageSet) (a b : PackageName) : Prop :=
  ∃ pkg, ps.get a = some pkg ∧ b ∈ pkg.dependencies

/-- `x` is reachable from one of the names in `roots` by repeated single-level
expansion of dependency lists. -/
def ReachableFrom (ps : PackageSet) (roots : List PackageName) (x : PackageName) :
    Prop :=
  ∃ r ∈ roots, Relation.ReflTransGen (depStep ps) r x

/-- A present key is among the universe names. -/
theorem mem_psUniverse_of_get {ps : PackageSet} {n : PackageName} {pkg : Package}
    (h : ps.get n = some pkg) : n ∈ psUniverse ps := by
  have : n ∈ ps.map Prod.fst := by
    induction ps with
    | nil => simp [PackageSet.get, mapGet] at h
    | cons hd tl ih =>
      obtain ⟨k, v⟩ := hd
      by_cases hk : k = n
      · simp [hk]
      · simp only [PackageSet.get, mapGet, if_neg hk] at h
        simp [ih h]
  simp [psUniverse, this]

/-- A dependency of a present package is among the universe names. -/
theorem dep_mem_psUniverse {ps : PackageSet} {n d : PackageName} {pkg : Package}
    (h : ps.get n = some pkg) (hd : d ∈ pkg.dependencies) : d ∈ psUniverse ps := by
  have : pkg.dependencies ∈ ps.map (fun kv => kv.2.dependencies) := by
    induction ps with
    | nil => simp [PackageSet.get, mapGet] at h
    | cons hd₀ tl ih =>
      obtain ⟨k, v⟩ := hd₀
      by_cases hk : k = n
      · simp only [PackageSet.get, mapGet, if_pos hk] at h
        injection h with h
        simp [h]
      · simp only [PackageSet.get, mapGet, if_neg hk] at h
        simp [ih h]
  simp only [psUniverse, List.mem_append, List.mem_flatten]
  exact Or.inr ⟨pkg.dependencies, this, hd⟩

/-- State monotonicity of the closure walk: a successful run only grows the
processed set and the result set. -/
theorem collect_mono (fuel : Nat) (ps : PackageSet) :
    (∀ name all processed a p,
      collect_dependencies_recursive fuel ps name all processed =
        some (.ok (a, p)) →
      (∀ x ∈ processed, x ∈ p) ∧ (∀ x ∈ all, x ∈ a)) ∧
    (∀ deps all processed a p,
      collect_deps_list fuel ps deps all processed = some (.ok (a, p)) →
      (∀ x ∈ processed, x ∈ p) ∧ (∀ x ∈ all, x ∈ a)) := by
  induction fuel with
  | zero =>
    constructor
    · intro name all processed a p h
      simp [collect_dependencies_recursive] at h
    · intro deps all processed a p h
      cases deps with
      | nil =>
        simp only [collect_deps_list, Option.some_inj, Except.ok.injEq,
          Prod.mk.injEq] at h
        obtain ⟨h1, h2⟩ := h
        subst h1; subst h2
        exact ⟨fun x hx => hx, fun x hx => hx⟩
      | cons d rest =>
        simp [collect_deps_list, collect_dependencies_recursive] at h
  | succ fuel ih =>
    have hc : ∀ name all processed a p,
        collect_dependencies_recursive (fuel + 1) ps name all processed =
          some (.ok (a, p)) →
        (∀ x ∈ processed, x ∈ p) ∧ (∀ x ∈ all, x ∈ a) := by
      intro name all processed a p h
      rw [collect_dependencies_recursive] at h
      by_cases hmem : name ∈ processed
      · rw [if_pos hmem] at h
        simp only [Option.some_inj, Except.ok.injEq, Prod.mk.injEq] at h
        obtain ⟨h1, h2⟩ := h
        subst h1; subst h2
        exact ⟨fun x hx => hx, fun x hx => hx⟩
      · rw [if_neg hmem] at h
        cases hget : ps.get name with
        | none => rw [hget] at h; simp at h
        | some pkg =>
          rw [hget] at h
          simp only [] at h
          cases hlist : collect_deps_list fuel ps pkg.dependencies all
              (hashInsert processed name) with
          | none => rw [hlist] at h; simp at h
          | some r =>
            cases r with
            | error e => rw [hlist] at h; simp at h
            | ok st =>
              obtain ⟨a₀, p₀⟩ := st
              rw [hlist] at h
              simp only [Option.some_inj, Except.ok.injEq, Prod.mk.injEq] at h
              obtain ⟨h1, h2⟩ := h
              obtain ⟨hp, ha⟩ := ih.2 pkg.dependencies all
                (hashInsert processed name) a₀ p₀ hlist
              subst h1; subst h2
              constructor
              · intro x hx
                apply hp
                unfold hashInsert
                split <;> simp [hx]
              · intro x hx
                unfold hashInsert
                split <;> simp [ha x hx]
    refine ⟨hc, ?_⟩
    intro deps
    induction deps with
    | nil =>
      intro all processed a p h
      simp only [collect_deps_list, Option.some_inj, Except.ok.injEq,
        Prod.mk.injEq] at h
      obtain ⟨h1, h2⟩ := h
      subst h1; subst h2
      exact ⟨fun x hx => hx, fun x hx => hx⟩
    | cons d rest ihrest =>
      intro all processed a p h
      rw [collect_deps_list] at h
      cases hhead : collect_dependencies_recursive (fuel + 1) ps d all processed with
      | none => rw [hhead] at h; simp at h
      | some r =>
        cases r with
        | error e => rw [hhead] at h; simp at h
        | ok st =>
          obtain ⟨a₁, p₁⟩ := st
          rw [hhead] at h
          simp only at h
          obtain ⟨hp₁, ha₁⟩ := hc d all processed a₁ p₁ hhead
          obtain ⟨hp₂, ha₂⟩ := ihrest a₁ p₁ a p h
          exact ⟨fun x hx => hp₂ x (hp₁ x hx), fun x hx => ha₂ x (ha₁ x hx)⟩

/-- Remaining recursion-depth budget: universe names not yet processed. -/
def collectMeasure (ps : PackageSet) (processed : List PackageName) : Nat :=
  ((psUniverse ps).toFinset.filter (fun x => x ∉ processed)).card

/-- Growing the processed set cannot grow the measure. -/
theorem collectMeasure_le {ps : PackageSet} {processed p' : List PackageName}
    (hsub : ∀ x ∈ processed, x ∈ p') :
    collectMeasure ps p' ≤ collectMeasure ps processed := by
  apply Finset.card_le_card
  apply Finset.monotone_filter_right
  intro x hx hmem
  exact hx (hsub x hmem)

/-- Processing a new universe name strictly shrinks the measure. -/
theorem collectMeasure_lt {ps : PackageSet} {processed p' : List PackageName}
    {name : PackageName} (hsub : ∀ x ∈ processed, x ∈ p') (hname : name ∈ p')
    (hnotin : name ∉ processed) (huniv : name ∈ psUniverse ps) :
    collectMeasure ps p' < collectMeasure ps processed := by
  apply Finset.card_lt_card
  rw [Finset.ssubset_iff_of_subset
    (Finset.monotone_filter_right _ (fun x hx hmem => hx (hsub x hmem)))]
  exact ⟨name, Finset.mem_filter.mpr ⟨List.mem_toFinset.mpr huniv, hnotin⟩,
    by simp [hname]⟩

/-- With fuel exceeding the measure, the closure walk never runs out of fuel. -/
theorem collect_fuel_sufficient (ps : PackageSet) : ∀ fuel : Nat,
    (∀ name all processed, collectMeasure ps processed < fuel →
      collect_dependencies_recursive fuel ps name all processed ≠ none) ∧
    (∀ deps all processed, collectMeasure ps processed < fuel →
      collect_deps_list fuel ps deps all processed ≠ none) := by
  intro fuel
  induction fuel with
  | zero =>
    exact ⟨fun _ _ _ h => absurd h (Nat.not_lt_zero _),
      fun _ _ _ h => absurd h (Nat.not_lt_zero _)⟩
  | succ fuel ih =>
    have hc : ∀ name all processed, collectMeasure ps processed < fuel + 1 →
        collect_dependencies_recursive (fuel + 1) ps name all processed ≠ none := by
      intro name all processed hlt h
      rw [collect_dependencies_recursive] at h
      by_cases hmem : name ∈ processed
      · rw [if_pos hmem] at h; exact Option.noConfusion h
      · rw [if_neg hmem] at h
        cases hget : ps.get name with
        | none => rw [hget] at h; exact Option.noConfusion h
        | some pkg =>
          rw [hget] at h
          simp only [] at h
          have hname : name ∈ hashInsert processed name := by
            unfold hashInsert; split <;> simp_all
          have hsub : ∀ x ∈ processed, x ∈ hashInsert processed name := by
            intro x hx; unfold hashInsert; split <;> simp [hx]
          have hm : collectMeasure ps (hashInsert processed name) < fuel := by
            have := collectMeasure_lt hsub hname hmem (mem_psUniverse_of_get hget)
            omega
          cases hlist : collect_deps_list fuel ps pkg.dependencies all
              (hashInsert processed name) with
          | none => exact ih.2 pkg.dependencies all (hashInsert processed name) hm hlist
          | some r =>
            rw [hlist] at h
            cases r with
            | error e => exact Option.noConfusion h
            | ok st => obtain ⟨a₀, p₀⟩ := st; exact Option.noConfusion h
    refine ⟨hc, ?_⟩
    intro deps
    induction deps with
    | nil => intro all processed _ h; rw [collect_deps_list] at h
             exact Option.noConfusion h
    | cons d rest ihrest =>
      intro all processed hlt h
      rw [collect_deps_list] at h
      cases hhead : collect_dependencies_recursive (fuel + 1) ps d all processed with
      | none => exact hc d all processed hlt hhead
      | some r =>
        rw [hhead] at h
        cases r with
        | error e => exact Option.noConfusion h
        | ok st =>
          obtain ⟨a₁, p₁⟩ := st
          simp only [] at h
          have hsub := ((collect_mono (fuel + 1) ps).1 d all processed a₁ p₁ hhead).1
          exact ihrest a₁ p₁ (lt_of_le_of_lt (collectMeasure_le hsub) hlt) h

/-- Membership in a `hashInsert`. -/
theorem mem_hashInsert {s : List PackageName} {n x : PackageName} :
    x ∈ hashInsert s n ↔ x = n ∨ x ∈ s := by
  unfold hashInsert
  split
  · rename_i h
    constructor
    · exact Or.inr
    · rintro (rfl | hx)
      · exact h
      · exact hx
  · simp [List.mem_cons]

/-- Postconditions of a successful closure walk: every result name was already
in the result or is present in the set; every processed name was already
processed or ends in the result; every result name was already in the result
or ends processed; the visited name (resp. every listed name) ends processed. -/
theorem collect_post (fuel : Nat) (ps : PackageSet) :
    (∀ name all processed a p,
      collect_dependencies_recursive fuel ps name all processed =
        some (.ok (a, p)) →
      (∀ x ∈ a, x ∈ all ∨ (ps.get x).isSome) ∧
      (∀ x ∈ p, x ∈ processed ∨ x ∈ a) ∧
      (∀ x ∈ a, x ∈ all ∨ x ∈ p) ∧
      name ∈ p) ∧
    (∀ deps all processed a p,
      collect_deps_list fuel ps deps all processed = some (.ok (a, p)) →
      (∀ x ∈ a, x ∈ all ∨ (ps.get x).isSome) ∧
      (∀ x ∈ p, x ∈ processed ∨ x ∈ a) ∧
      (∀ x ∈ a, x ∈ all ∨ x ∈ p) ∧
      (∀ d ∈ deps, d ∈ p)) := by
  induction fuel with
  | zero =>
    constructor
    · intro name all processed a p h
      simp [collect_dependencies_recursive] at h
    · intro deps all processed a p h
      cases deps with
      | nil =>
        simp only [collect_deps_list, Option.some_inj, Except.ok.injEq,
          Prod.mk.injEq] at h
        obtain ⟨h1, h2⟩ := h
        subst h1; subst h2
        exact ⟨fun x hx => Or.inl hx, fun x hx => Or.inl hx,
          fun x hx => Or.inl hx, fun d hd => absurd hd (by simp)⟩
      | cons d rest =>
        simp [collect_deps_list, collect_dependencies_recursive] at h
  | succ fuel ih =>
    have hc : ∀ name all processed a p,
        collect_dependencies_recursive (fuel + 1) ps name all processed =
          some (.ok (a, p)) →
        (∀ x ∈ a, x ∈ all ∨ (ps.get x).isSome) ∧
        (∀ x ∈ p, x ∈ processed ∨ x ∈ a) ∧
        (∀ x ∈ a, x ∈ all ∨ x ∈ p) ∧
        name ∈ p := by
      intro name all processed a p h
      rw [collect_dependencies_recursive] at h
      by_cases hmem : name ∈ processed
      · rw [if_pos hmem] at h
        simp only [Option.some_inj, Except.ok.injEq, Prod.mk.injEq] at h
        obtain ⟨h1, h2⟩ := h
        subst h1; subst h2
        exact ⟨fun x hx => Or.inl hx, fun x hx => Or.inl hx,
          fun x hx => Or.inl hx, hmem⟩
      · rw [if_neg hmem] at h
        cases hget : ps.get name with
        | none => rw [hget] at h; simp at h
        | some pkg =>
          rw [hget] at h
          simp only [] at h
          cases hlist : collect_deps_list fuel ps pkg.dependencies all
              (hashInsert processed name) with
          | none => rw [hlist] at h; simp at h
          | some r =>
            cases r with
            | error e => rw [hlist] at h; simp at h
            | ok st =>
              obtain ⟨a₀, p₀⟩ := st
              rw [hlist] at h
              simp only [Option.some_inj, Except.ok.injEq, Prod.mk.injEq] at h
              obtain ⟨h1, h2⟩ := h
              obtain ⟨ih1, ih2, ih3, _⟩ := ih.2 pkg.dependencies all
                (hashInsert processed name) a₀ p₀ hlist
              have hmono := (collect_mono fuel ps).2 pkg.dependencies all
                (hashInsert processed name) a₀ p₀ hlist
              have hnamep : name ∈ p₀ :=
                hmono.1 name (mem_hashInsert.mpr (Or.inl rfl))
              subst h1; subst h2
              refine ⟨?_, ?_, ?_, hnamep⟩
              · intro x hx
                rcases mem_hashInsert.mp hx with hx₀ | hx₀
                · subst hx₀; exact Or.inr (by simp [hget])
                · exact ih1 x hx₀
              · intro x hx
                rcases ih2 x hx with hx₀ | hx₀
                · rcases mem_hashInsert.mp hx₀ with hx₁ | hx₁
                  · subst hx₁
                    exact Or.inr (mem_hashInsert.mpr (Or.inl rfl))
                  · exact Or.inl hx₁
                · exact Or.inr (mem_hashInsert.mpr (Or.inr hx₀))
              · intro x hx
                rcases mem_hashInsert.mp hx with hx₀ | hx₀
                · subst hx₀; exact Or.inr hnamep
                · rcases ih3 x hx₀ with hx₁ | hx₁
                  · exact Or.inl hx₁
                  · exact Or.inr hx₁
    refine ⟨hc, ?_⟩
    intro deps
    induction deps with
    | nil =>
      intro all processed a p h
      simp only [collect_deps_list, Option.some_inj, Except.ok.injEq,
        Prod.mk.injEq] at h
      obtain ⟨h1, h2⟩ := h
      subst h1; subst h2
      exact ⟨fun x hx => Or.inl hx, fun x hx => Or.inl hx,
        fun x hx => Or.inl hx, fun d hd => absurd hd (by simp)⟩
    | cons d rest ihrest =>
      intro all processed a p h
      rw [collect_deps_list] at h
      cases hhead : collect_dependencies_recursive (fuel + 1) ps d all processed with
      | none => rw [hhead] at h; simp at h
      | some r =>
        rw [hhead] at h
        cases r with
        | error e => simp at h
        | ok st =>
          obtain ⟨a₁, p₁⟩ := st
          simp only [] at h
          obtain ⟨hc1, hc2, hc3, hc4⟩ := hc d all processed a₁ p₁ hhead
          obtain ⟨ir1, ir2, ir3, ir4⟩ := ihrest a₁ p₁ a p h
          have hmono := (collect_mono (fuel + 1) ps).2 rest a₁ p₁ a p h
          refine ⟨?_, ?_, ?_, ?_⟩
          · intro x hx
            rcases ir1 x hx with hx₀ | hx₀
            · exact hc1 x hx₀
            · exact Or.inr hx₀
          · intro x hx
            rcases ir2 x hx with hx₀ | hx₀
            · rcases hc2 x hx₀ with hx₁ | hx₁
              · exact Or.inl hx₁
              · exact Or.inr (hmono.2 x hx₁)
            · exact Or.inr hx₀
          · intro x hx
            rcases ir3 x hx with hx₀ | hx₀
            · rcases hc3 x hx₀ with hx₁ | hx₁
              · exact Or.inl hx₁
              · exact Or.inr (hmono.1 x hx₁)
            · exact Or.inr hx₀
          · intro d₀ hd₀
            rcases List.mem_cons.mp hd₀ with hd₁ | hd₁
            · subst hd₁; exact hmono.1 d₀ hc4
            · exact ir4 d₀ hd₁

/-- Dependency-closedness of a successful walk: every name processed during
the walk (not before it) has all its listed dependencies processed by the end. -/
theorem collect_closed (fuel : Nat) (ps : PackageSet) :
    (∀ name all processed a p,
      collect_dependencies_recursive fuel ps name all processed =
        some (.ok (a, p)) →
      ∀ x ∈ p, x ∉ processed → ∀ pkgx, ps.get x = some pkgx →
        ∀ d ∈ pkgx.dependencies, d ∈ p) ∧
    (∀ deps all processed a p,
      collect_deps_list fuel ps deps all processed = some (.ok (a, p)) →
      ∀ x ∈ p, x ∉ processed → ∀ pkgx, ps.get x = some pkgx →
        ∀ d ∈ pkgx.dependencies, d ∈ p) := by
  induction fuel with
  | zero =>
    constructor
    · intro name all processed a p h
      simp [collect_dependencies_recursive] at h
    · intro deps all processed a p h
      cases deps with
      | nil =>
        simp only [collect_deps_list, Option.some_inj, Except.ok.injEq,
          Prod.mk.injEq] at h
        obtain ⟨h1, h2⟩ := h
        subst h1; subst h2
        intro x hx hnx
        exact absurd hx hnx
      | cons d rest =>
        simp [collect_deps_list, collect_dependencies_recursive] at h
  | succ fuel ih =>
    have hc : ∀ name all processed a p,
        collect_dependencies_recursive (fuel + 1) ps name all processed =
          some (.ok (a, p)) →
        ∀ x ∈ p, x ∉ processed → ∀ pkgx, ps.get x = some pkgx →
          ∀ d ∈ pkgx.dependencies, d ∈ p := by
      intro name all processed a p h
      rw [collect_dependencies_recursive] at h
      by_cases hmem : name ∈ processed
      · rw [if_pos hmem] at h
        simp only [Option.some_inj, Except.ok.injEq, Prod.mk.injEq] at h
        obtain ⟨h1, h2⟩ := h
        subst h1; subst h2
        intro x hx hnx
        exact absurd hx hnx
      · rw [if_neg hmem] at h
        cases hget : ps.get name with
        | none => rw [hget] at h; simp at h
        | some pkg =>
          rw [hget] at h
          simp only [] at h
          cases hlist : collect_deps_list fuel ps pkg.dependencies all
              (hashInsert processed name) with
          | none => rw [hlist] at h; simp at h
          | some r =>
            cases r with
            | error e => rw [hlist] at h; simp at h
            | ok st =>
              obtain ⟨a₀, p₀⟩ := st
              rw [hlist] at h
              simp only [Option.some_inj, Except.ok.injEq, Prod.mk.injEq] at h
              obtain ⟨h1, h2⟩ := h
              subst h1; subst h2
              intro x hx hnx pkgx hgetx d hd
              by_cases hx₀ : x ∈ hashInsert processed name
              · rcases mem_hashInsert.mp hx₀ with hx₁ | hx₁
                · rw [hx₁] at hgetx
                  rw [hget] at hgetx
                  injection hgetx with he
                  subst he
                  exact ((collect_post fuel ps).2 pkg.dependencies all
                    (hashInsert processed name) a₀ p₀ hlist).2.2.2 d hd
                · exact absurd hx₁ hnx
              · exact ih.2 pkg.dependencies all (hashInsert processed name) a₀ p₀
                  hlist x hx hx₀ pkgx hgetx d hd
    refine ⟨hc, ?_⟩
    intro deps
    induction deps with
    | nil =>
      intro all processed a p h
      simp only [collect_deps_list, Option.some_inj, Except.ok.injEq,
        Prod.mk.injEq] at h
      obtain ⟨h1, h2⟩ := h
      subst h1; subst h2
      intro x hx hnx
      exact absurd hx hnx
    | cons d rest ihrest =>
      intro all processed a p h
      rw [collect_deps_list] at h
      cases hhead : collect_dependencies_recursive (fuel + 1) ps d all processed with
      | none => rw [hhead] at h; simp at h
      | some r =>
        rw [hhead] at h
        cases r with
        | error e => simp at h
        | ok st =>
          obtain ⟨a₁, p₁⟩ := st
          simp only [] at h
          intro x hx hnx pkgx hgetx d₀ hd₀
          by_cases hx₁ : x ∈ p₁
          · have := hc d all processed a₁ p₁ hhead x hx₁ hnx pkgx hgetx d₀ hd₀
            exact ((collect_mono (fuel + 1) ps).2 rest a₁ p₁ a p h).1 d₀ this
          · exact ihrest a₁ p₁ a p h x hx hx₁ pkgx hgetx d₀ hd₀

/-- Every error a closure walk produces is the terminal not-found message for
some name absent from the package set. -/
theorem collect_error_form (fuel : Nat) (ps : PackageSet) :
    (∀ name all processed e,
      collect_dependencies_recursive fuel ps name all processed =
        some (.error e) →
      ∃ x, ps.get x = none ∧
        e = "Package '" ++ x ++ "' not found in package set") ∧
    (∀ deps all processed e,
      collect_deps_list fuel ps deps all processed = some (.error e) →
      ∃ x, ps.get x = none ∧
        e = "Package '" ++ x ++ "' not found in package set") := by
  induction fuel with
  | zero =>
    constructor
    · intro name all processed e h
      simp [collect_dependencies_recursive] at h
    · intro deps all processed e h
      cases deps with
      | nil => simp [collect_deps_list] at h
      | cons d rest =>
        simp [collect_deps_list, collect_dependencies_recursive] at h
  | succ fuel ih =>
    have hc : ∀ name all processed e,
        collect_dependencies_recursive (fuel + 1) ps name all processed =
          some (.error e) →
        ∃ x, ps.get x = none ∧
          e = "Package '" ++ x ++ "' not found in package set" := by
      intro name all processed e h
      rw [collect_dependencies_recursive] at h
      by_cases hmem : name ∈ processed
      · rw [if_pos hmem] at h; simp at h
      · rw [if_neg hmem] at h
        cases hget : ps.get name with
        | none =>
          rw [hget] at h
          simp only [Option.some_inj, Except.error.injEq] at h
          exact ⟨name, hget, h.symm⟩
        | some pkg =>
          rw [hget] at h
          simp only [] at h
          cases hlist : collect_deps_list fuel ps pkg.dependencies all
              (hashInsert processed name) with
          | none => rw [hlist] at h; simp at h
          | some r =>
            cases r with
            | error e₀ =>
              rw [hlist] at h
              simp only [Option.some_inj, Except.error.injEq] at h
              rw [h] at hlist
              exact ih.2 pkg.dependencies all (hashInsert processed name) e hlist
            | ok st =>
              obtain ⟨a₀, p₀⟩ := st
              rw [hlist] at h
              simp at h
    refine ⟨hc, ?_⟩
    intro deps
    induction deps with
    | nil =>
      intro all processed e h
      simp [collect_deps_list] at h
    | cons d rest ihrest =>
      intro all processed e h
      rw [collect_deps_list] at h
      cases hhead : collect_dependencies_recursive (fuel + 1) ps d all processed with
      | none => rw [hhead] at h; simp at h
      | some r =>
        rw [hhead] at h
        cases r with
        | error e₀ =>
          simp only [Option.some_inj, Except.error.injEq] at h
          rw [h] at hhead
          exact hc d all processed e hhead
        | ok st =>
          obtain ⟨a₁, p₁⟩ := st
          simp only [] at h
          exact ihrest a₁ p₁ e h

/-- C1: for every direct-dependency list handed to the install manager's
recursive closure walk over a package set, the walk terminates; on success the
computed closure contains every name reachable by repeated single-level
expansion of dependency lists and contains no name absent from the package
set; and if any reachable name is absent the walk instead returns the terminal
not-found error of an absent name, not a partial closure. -/
theorem C1_closure_correct (ps : PackageSet) (directDeps : List PackageName) :
    (collect_all ps directDeps ≠ none) ∧
    (∀ a p, collect_all ps directDeps = some (.ok (a, p)) →
      (∀ x, ReachableFrom ps directDeps x → x ∈ a) ∧
      (∀ x ∈ a, (ps.get x).isSome)) ∧
    ((∃ x, ReachableFrom ps directDeps x ∧ ps.get x = none) →
      ∃ e x, collect_all ps directDeps = some (.error e) ∧ ps.get x = none ∧
        e = "Package '" ++ x ++ "' not found in package set") := by
  have hterm : collect_all ps directDeps ≠ none := by
    apply (collect_fuel_sufficient ps (collectFuel ps)).2
    have : collectMeasure ps [] = (psUniverse ps).toFinset.card := by
      unfold collectMeasure
      congr 1
      apply Finset.filter_true_of_mem
      intro x _
      simp
    rw [this]
    unfold collectFuel
    omega
  have hsucc : ∀ a p, collect_all ps directDeps = some (.ok (a, p)) →
      (∀ x, ReachableFrom ps directDeps x → x ∈ a) ∧
      (∀ x ∈ a, (ps.get x).isSome) := by
    intro a p hrun
    obtain ⟨post1, post2, _, post4⟩ :=
      (collect_post (collectFuel ps) ps).2 directDeps [] [] a p hrun
    have hclosed := (collect_closed (collectFuel ps) ps).2 directDeps [] [] a p hrun
    have hreachp : ∀ x, ReachableFrom ps directDeps x → x ∈ p := by
      rintro x ⟨r, hr, htrans⟩
      induction htrans with
      | refl => exact post4 r hr
      | tail _ hbc ihp =>
        obtain ⟨pkgb, hgetb, hdep⟩ := hbc
        exact hclosed _ ihp (List.not_mem_nil _) pkgb hgetb _ hdep
    constructor
    · intro x hx
      rcases post2 x (hreachp x hx) with h | h
      · exact absurd h (List.not_mem_nil x)
      · exact h
    · intro x hx
      rcases post1 x hx with h | h
      · exact absurd h (List.not_mem_nil x)
      · exact h
  refine ⟨hterm, hsucc, ?_⟩
  rintro ⟨x, hreach, habs⟩
  cases hr : collect_all ps directDeps with
  | none => exact absurd hr hterm
  | some r =>
    cases r with
    | error e =>
      obtain ⟨x', hx'⟩ :=
        (collect_error_form (collectFuel ps) ps).2 directDeps [] [] e hr
      exact ⟨e, x', rfl, hx'.1, hx'.2⟩
    | ok st =>
      obtain ⟨a, p⟩ := st
      have := ((hsucc a p hr).2 x ((hsucc a p hr).1 x hreach))
      rw [habs] at this
      simp at this

/-- A remote package d depending on the absent name `missing`. -/
def demoDPkg : PackageSetPackage :=
  { name := "d", dependencies := ["missing"], repo := "r", version := "v1" }

/-- A small package set: a → b → c, and d → missing (an absent name). -/
def demoPS : PackageSet :=
  [("a", .Remote { name := "a", dependencies := ["b"], repo := "r", version := "v1" }),
   ("b", .Remote { name := "b", dependencies := ["c"], repo := "r", version := "v1" }),
   ("c", .Remote { name := "c", dependencies := [], repo := "r", version := "v1" }),
   ("d", .Remote demoDPkg)]

/-- Witness for C1 at `demoPS`: the walk from direct dependency d, whose
dependency `missing` is absent, returns the terminal not-found error. -/
theorem C1_closure_correct_witness :
    ∃ e x, collect_all demoPS ["d"] = some (.error e) ∧ demoPS.get x = none ∧
      e = "Package '" ++ x ++ "' not found in package set" :=
  (C1_closure_correct demoPS ["d"]).2.2
    ⟨"missing",
      ⟨"d", by simp,
        Relation.ReflTransGen.single
          ⟨.Remote demoDPkg, by decide, by decide⟩⟩,
      by decide⟩

/-! ## Cleanup of unused packages (src/src/install/cleanup.rs) -/

mutual

/-- `collect_dependencies_recursive` of src/src/install/cleanup.rs:87-112: the
cleanup variant of the closure walk.  Unlike the install manager's walk it
never fails: a name absent from the package set is marked processed and
silently skipped, contributing nothing to the required set. -/
def cleanup_collect_dependencies_recursive (fuel : Nat) (ps : PackageSet)
    (package_name : PackageName) (all_packages processed : List PackageName) :
    Option (List PackageName × List PackageName) :=
  match fuel with
  | 0 => none
  | fuel + 1 =>
    if package_name ∈ processed then some (all_packages, processed)
    else
      match ps.get package_name with
      | none => some (all_packages, hashInsert processed package_name)
      | some package =>
        match cleanup_collect_list fuel ps package.dependencies all_packages
            (hashInsert processed package_name) with
        | none => none
        | some (a, p) => some (hashInsert a package_name, p)
termination_by (fuel, 0)

/-- The dependency loop of the cleanup walk, and the driver loop over
`config.all_dependencies()` in `cleanup_unused_packages`
(src/src/install/cleanup.rs:25-33). -/
def cleanup_collect_list (fuel : Nat) (ps : PackageSet) (deps : List PackageName)
    (all_packages processed : List PackageName) :
    Option (List PackageName × List PackageName) :=
  match deps with
  | [] => some (all_packages, processed)
  | d :: rest =>
    match cleanup_collect_dependencies_recursive fuel ps d all_packages processed with
    | none => none
    | some (a, p) => cleanup_collect_list fuel ps rest a p
termination_by (fuel, deps.length + 1)

end

/-- State monotonicity of the cleanup walk. -/
theorem cleanup_collect_mono (fuel : Nat) (ps : PackageSet) :
    (∀ name all processed a p,
      cleanup_collect_dependencies_recursive fuel ps name all processed =
        some (a, p) →
      (∀ x ∈ processed, x ∈ p) ∧ (∀ x ∈ all, x ∈ a)) ∧
    (∀ deps all processed a p,
      cleanup_collect_list fuel ps deps all processed = some (a, p) →
      (∀ x ∈ processed, x ∈ p) ∧ (∀ x ∈ all, x ∈ a)) := by
  induction fuel with
  | zero =>
    constructor
    · intro name all processed a p h
      simp [cleanup_collect_dependencies_recursive] at h
    · intro deps all processed a p h
      cases deps with
      | nil =>
        simp only [cleanup_collect_list, Option.some_inj, Prod.mk.injEq] at h
        obtain ⟨h1, h2⟩ := h
        subst h1; subst h2
        exact ⟨fun x hx => hx, fun x hx => hx⟩
      | cons d rest =>
        simp [cleanup_collect_list, cleanup_collect_dependencies_recursive] at h
  | succ fuel ih =>
    have hc : ∀ name all processed a p,
        cleanup_collect_dependencies_recursive (fuel + 1) ps name all processed =
          some (a, p) →
        (∀ x ∈ processed, x ∈ p) ∧ (∀ x ∈ all, x ∈ a) := by
      intro name all processed a p h
      rw [cleanup_collect_dependencies_recursive] at h
      by_cases hmem : name ∈ processed
      · rw [if_pos hmem] at h
        simp only [Option.some_inj, Prod.mk.injEq] at h
        obtain ⟨h1, h2⟩ := h
        subst h1; subst h2
        exact ⟨fun x hx => hx, fun x hx => hx⟩
      · rw [if_neg hmem] at h
        cases hget : ps.get name with
        | none =>
          rw [hget] at h
          simp only [Option.some_inj, Prod.mk.injEq] at h
          obtain ⟨h1, h2⟩ := h
          subst h1; subst h2
          exact ⟨fun x hx => mem_hashInsert.mpr (Or.inr hx), fun x hx => hx⟩
        | some pkg =>
          rw [hget] at h
          simp only [] at h
          cases hlist : cleanup_collect_list fuel ps pkg.dependencies all
              (hashInsert processed name) with
          | none => rw [hlist] at h; simp at h
          | some st =>
            obtain ⟨a₀, p₀⟩ := st
            rw [hlist] at h
            simp only [Option.some_inj, Prod.mk.injEq] at h
            obtain ⟨h1, h2⟩ := h
            obtain ⟨hp, ha⟩ := ih.2 pkg.dependencies all
              (hashInsert processed name) a₀ p₀ hlist
            subst h1; subst h2
            exact ⟨fun x hx => hp x (mem_hashInsert.mpr (Or.inr hx)),
              fun x hx => mem_hashInsert.mpr (Or.inr (ha x hx))⟩
    refine ⟨hc, ?_⟩
    intro deps
    induction deps with
    | nil =>
      intro all processed a p h
      simp only [cleanup_collect_list, Option.some_inj, Prod.mk.injEq] at h
      obtain ⟨h1, h2⟩ := h
      subst h1; subst h2
      exact ⟨fun x hx => hx, fun x hx => hx⟩
    | cons d rest ihrest =>
      intro all processed a p h
      rw [cleanup_collect_list] at h
      cases hhead : cleanup_collect_dependencies_recursive (fuel + 1) ps d all
          processed with
      | none => rw [hhead] at h; simp at h
      | some st =>
        obtain ⟨a₁, p₁⟩ := st
        rw [hhead] at h
        simp only [] at h
        obtain ⟨hp₁, ha₁⟩ := hc d all processed a₁ p₁ hhead
        obtain ⟨hp₂, ha₂⟩ := ihrest a₁ p₁ a p h
        exact ⟨fun x hx => hp₂ x (hp₁ x hx), fun x hx => ha₂ x (ha₁ x hx)⟩

/-- With fuel exceeding the measure, the cleanup walk never runs out of fuel. -/
theorem cleanup_fuel_sufficient (ps : PackageSet) : ∀ fuel : Nat,
    (∀ name all processed, collectMeasure ps processed < fuel →
      cleanup_collect_dependencies_recursive fuel ps name all processed ≠ none) ∧
    (∀ deps all processed, collectMeasure ps processed < fuel →
      cleanup_collect_list fuel ps deps all processed ≠ none) := by
  intro fuel
  induction fuel with
  | zero =>
    exact ⟨fun _ _ _ h => absurd h (Nat.not_lt_zero _),
      fun _ _ _ h => absurd h (Nat.not_lt_zero _)⟩
  | succ fuel ih =>
    have hc : ∀ name all processed, collectMeasure ps processed < fuel + 1 →
        cleanup_collect_dependencies_recursive (fuel + 1) ps name all processed ≠
          none := by
      intro name all processed hlt h
      rw [cleanup_collect_dependencies_recursive] at h
      by_cases hmem : name ∈ processed
      · rw [if_pos hmem] at h; exact Option.noConfusion h
      · rw [if_neg hmem] at h
        cases hget : ps.get name with
        | none => rw [hget] at h; exact Option.noConfusion h
        | some pkg =>
          rw [hget] at h
          simp only [] at h
          have hm : collectMeasure ps (hashInsert processed name) < fuel := by
            have := collectMeasure_lt
              (fun x hx => mem_hashInsert.mpr (Or.inr hx))
              (mem_hashInsert.mpr (Or.inl rfl)) hmem (mem_psUniverse_of_get hget)
            omega
          cases hlist : cleanup_collect_list fuel ps pkg.dependencies all
              (hashInsert processed name) with
          | none =>
            exact ih.2 pkg.dependencies all (hashInsert processed name) hm hlist
          | some st =>
            rw [hlist] at h
            obtain ⟨a₀, p₀⟩ := st
            exact Option.noConfusion h
    refine ⟨hc, ?_⟩
    intro deps
    induction deps with
    | nil =>
      intro all processed _ h
      rw [cleanup_collect_list] at h
      exact Option.noConfusion h
    | cons d rest ihrest =>
      intro all processed hlt h
      rw [cleanup_collect_list] at h
      cases hhead : cleanup_collect_dependencies_recursive (fuel + 1) ps d all
          processed with
      | none => exact hc d all processed hlt hhead
      | some st =>
        obtain ⟨a₁, p₁⟩ := st
        rw [hhead] at h
        simp only [] at h
        have hsub :=
          ((cleanup_collect_mono (fuel + 1) ps).1 d all processed a₁ p₁ hhead).1
        exact ihrest a₁ p₁ (lt_of_le_of_lt (collectMeasure_le hsub) hlt) h

/-- Postconditions of the cleanup walk: names enter the required set only if
present; every processed name was already processed, ends required, or is
absent; names enter the required set only if reachable from the visited name
(resp. one of the listed names); the visited name (resp. every listed name)
ends processed. -/
theorem cleanup_collect_post (fuel : Nat) (ps : PackageSet) :
    (∀ name all processed a p,
      cleanup_collect_dependencies_recursive fuel ps name all processed =
        some (a, p) →
      (∀ x ∈ a, x ∈ all ∨ (ps.get x).isSome) ∧
      (∀ x ∈ p, x ∈ processed ∨ x ∈ a ∨ ps.get x = none) ∧
      (∀ x ∈ a, x ∈ all ∨ Relation.ReflTransGen (depStep ps) name x) ∧
      name ∈ p) ∧
    (∀ deps all processed a p,
      cleanup_collect_list fuel ps deps all processed = some (a, p) →
      (∀ x ∈ a, x ∈ all ∨ (ps.get x).isSome) ∧
      (∀ x ∈ p, x ∈ processed ∨ x ∈ a ∨ ps.get x = none) ∧
      (∀ x ∈ a, x ∈ all ∨ ∃ d ∈ deps, Relation.ReflTransGen (depStep ps) d x) ∧
      (∀ d ∈ deps, d ∈ p)) := by
  induction fuel with
  | zero =>
    constructor
    · intro name all processed a p h
      simp [cleanup_collect_dependencies_recursive] at h
    · intro deps all processed a p h
      cases deps with
      | nil =>
        simp only [cleanup_collect_list, Option.some_inj, Prod.mk.injEq] at h
        obtain ⟨h1, h2⟩ := h
        subst h1; subst h2
        exact ⟨fun x hx => Or.inl hx, fun x hx => Or.inl hx,
          fun x hx => Or.inl hx, fun d hd => absurd hd (by simp)⟩
      | cons d rest =>
        simp [cleanup_collect_list, cleanup_collect_dependencies_recursive] at h
  | succ fuel ih =>
    have hc : ∀ name all processed a p,
        cleanup_collect_dependencies_recursive (fuel + 1) ps name all processed =
          some (a, p) →
        (∀ x ∈ a, x ∈ all ∨ (ps.get x).isSome) ∧
        (∀ x ∈ p, x ∈ processed ∨ x ∈ a ∨ ps.get x = none) ∧
        (∀ x ∈ a, x ∈ all ∨ Relation.ReflTransGen (depStep ps) name x) ∧
        name ∈ p := by
      intro name all processed a p h
      rw [cleanup_collect_dependencies_recursive] at h
      by_cases hmem : name ∈ processed
      · rw [if_pos hmem] at h
        simp only [Option.some_inj, Prod.mk.injEq] at h
        obtain ⟨h1, h2⟩ := h
        subst h1; subst h2
        exact ⟨fun x hx => Or.inl hx, fun x hx => Or.inl hx,
          fun x hx => Or.inl hx, hmem⟩
      · rw [if_neg hmem] at h
        cases hget : ps.get name with
        | none =>
          rw [hget] at h
          simp only [Option.some_inj, Prod.mk.injEq] at h
          obtain ⟨h1, h2⟩ := h
          subst h1; subst h2
          refine ⟨fun x hx => Or.inl hx, ?_, fun x hx => Or.inl hx,
            mem_hashInsert.mpr (Or.inl rfl)⟩
          intro x hx
          rcases mem_hashInsert.mp hx with hx₀ | hx₀
          · subst hx₀; exact Or.inr (Or.inr hget)
          · exact Or.inl hx₀
        | some pkg =>
          rw [hget] at h
          simp only [] at h
          cases hlist : cleanup_collect_list fuel ps pkg.dependencies all
              (hashInsert processed name) with
          | none => rw [hlist] at h; simp at h
          | some st =>
            obtain ⟨a₀, p₀⟩ := st
            rw [hlist] at h
            simp only [Option.some_inj, Prod.mk.injEq] at h
            obtain ⟨h1, h2⟩ := h
            obtain ⟨ih1, ih2, ih3, _⟩ := ih.2 pkg.dependencies all
              (hashInsert processed name) a₀ p₀ hlist
            have hmono := (cleanup_collect_mono fuel ps).2 pkg.dependencies all
              (hashInsert processed name) a₀ p₀ hlist
            have hnamep : name ∈ p₀ :=
              hmono.1 name (mem_hashInsert.mpr (Or.inl rfl))
            subst h1; subst h2
            refine ⟨?_, ?_, ?_, hnamep⟩
            · intro x hx
              rcases mem_hashInsert.mp hx with hx₀ | hx₀
              · subst hx₀; exact Or.inr (by simp [hget])
              · exact ih1 x hx₀
            · intro x hx
              rcases ih2 x hx with hx₀ | hx₀
              · rcases mem_hashInsert.mp hx₀ with hx₁ | hx₁
                · subst hx₁
                  exact Or.inr (Or.inl (mem_hashInsert.mpr (Or.inl rfl)))
                · exact Or.inl hx₁
              · rcases hx₀ with hx₀ | hx₀
                · exact Or.inr (Or.inl (mem_hashInsert.mpr (Or.inr hx₀)))
                · exact Or.inr (Or.inr hx₀)
            · intro x hx
              rcases mem_hashInsert.mp hx with hx₀ | hx₀
              · subst hx₀; exact Or.inr Relation.ReflTransGen.refl
              · rcases ih3 x hx₀ with hx₁ | hx₁
                · exact Or.inl hx₁
                · obtain ⟨d, hd, hrtg⟩ := hx₁
                  exact Or.inr (Relation.ReflTransGen.head ⟨pkg, hget, hd⟩ hrtg)
    refine ⟨hc, ?_⟩
    intro deps
    induction deps with
    | nil =>
      intro all processed a p h
      simp only [cleanup_collect_list, Option.some_inj, Prod.mk.injEq] at h
      obtain ⟨h1, h2⟩ := h
      subst h1; subst h2
      exact ⟨fun x hx => Or.inl hx, fun x hx => Or.inl hx,
        fun x hx => Or.inl hx, fun d hd => absurd hd (by simp)⟩
    | cons d rest ihrest =>
      intro all processed a p h
      rw [cleanup_collect_list] at h
      cases hhead : cleanup_collect_dependencies_recursive (fuel + 1) ps d all
          processed with
      | none => rw [hhead] at h; simp at h
      | some st =>
        obtain ⟨a₁, p₁⟩ := st
        rw [hhead] at h
        simp only [] at h
        obtain ⟨hc1, hc2, hc3, hc4⟩ := hc d all processed a₁ p₁ hhead
        obtain ⟨ir1, ir2, ir3, ir4⟩ := ihrest a₁ p₁ a p h
        have hmono := (cleanup_collect_mono (fuel + 1) ps).2 rest a₁ p₁ a p h
        refine ⟨?_, ?_, ?_, ?_⟩
        · intro x hx
          rcases ir1 x hx with hx₀ | hx₀
          · exact hc1 x hx₀
          · exact Or.inr hx₀
        · intro x hx
          rcases ir2 x hx with hx₀ | hx₀
          · rcases hc2 x hx₀ with hx₁ | hx₁
            · exact Or.inl hx₁
            · rcases hx₁ with hx₁ | hx₁
              · exact Or.inr (Or.inl (hmono.2 x hx₁))
              · exact Or.inr (Or.inr hx₁)
          · exact Or.inr hx₀
        · intro x hx
          rcases ir3 x hx with hx₀ | hx₀
          · rcases hc3 x hx₀ with hx₁ | hx₁
            · exact Or.inl hx₁
            · exact Or.inr ⟨d, by simp, hx₁⟩
          · obtain ⟨d₀, hd₀, hrtg⟩ := hx₀
            exact Or.inr ⟨d₀, by simp [hd₀], hrtg⟩
        · intro d₀ hd₀
          rcases List.mem_cons.mp hd₀ with hd₁ | hd₁
          · subst hd₁; exact hmono.1 d₀ hc4
          · exact ir4 d₀ hd₁

/-- Dependency-closedness of the cleanup walk for present packages. -/
theorem cleanup_collect_closed (fuel : Nat) (ps : PackageSet) :
    (∀ name all processed a p,
      cleanup_collect_dependencies_recursive fuel ps name all processed =
        some (a, p) →
      ∀ x ∈ p, x ∉ processed → ∀ pkgx, ps.get x = some pkgx →
        ∀ d ∈ pkgx.dependencies, d ∈ p) ∧
    (∀ deps all processed a p,
      cleanup_collect_list fuel ps deps all processed = some (a, p) →
      ∀ x ∈ p, x ∉ processed → ∀ pkgx, ps.get x = some pkgx →
        ∀ d ∈ pkgx.dependencies, d ∈ p) := by
  induction fuel with
  | zero =>
    constructor
    · intro name all processed a p h
      simp [cleanup_collect_dependencies_recursive] at h
    · intro deps all processed a p h
      cases deps with
      | nil =>
        simp only [cleanup_collect_list, Option.some_inj, Prod.mk.injEq] at h
        obtain ⟨h1, h2⟩ := h
        subst h1; subst h2
        intro x hx hnx
        exact absurd hx hnx
      | cons d rest =>
        simp [cleanup_collect_list, cleanup_collect_dependencies_recursive] at h
  | succ fuel ih =>
    have hc : ∀ name all processed a p,
        cleanup_collect_dependencies_recursive (fuel + 1) ps name all processed =
          some (a, p) →
        ∀ x ∈ p, x ∉ processed → ∀ pkgx, ps.get x = some pkgx →
          ∀ d ∈ pkgx.dependencies, d ∈ p := by
      intro name all processed a p h
      rw [cleanup_collect_dependencies_recursive] at h
      by_cases hmem : name ∈ processed
      · rw [if_pos hmem] at h
        simp only [Option.some_inj, Prod.mk.injEq] at h
        obtain ⟨h1, h2⟩ := h
        subst h1; subst h2
        intro x hx hnx
        exact absurd hx hnx
      · rw [if_neg hmem] at h
        cases hget : ps.get name with
        | none =>
          rw [hget] at h
          simp only [Option.some_inj, Prod.mk.injEq] at h
          obtain ⟨h1, h2⟩ := h
          subst h1; subst h2
          intro x hx hnx pkgx hgetx d hd
          rcases mem_hashInsert.mp hx with hx₀ | hx₀
          · rw [hx₀, hget] at hgetx
            exact Option.noConfusion hgetx
          · exact absurd hx₀ hnx
        | some pkg =>
          rw [hget] at h
          simp only [] at h
          cases hlist : cleanup_collect_list fuel ps pkg.dependencies all
              (hashInsert processed name) with
          | none => rw [hlist] at h; simp at h
          | some st =>
            obtain ⟨a₀, p₀⟩ := st
            rw [hlist] at h
            simp only [Option.some_inj, Prod.mk.injEq] at h
            obtain ⟨h1, h2⟩ := h
            subst h1; subst h2
            intro x hx hnx pkgx hgetx d hd
            by_cases hx₀ : x ∈ hashInsert processed name
            · rcases mem_hashInsert.mp hx₀ with hx₁ | hx₁
              · rw [hx₁] at hgetx
                rw [hget] at hgetx
                injection hgetx with he
                subst he
                exact ((cleanup_collect_post fuel ps).2 pkg.dependencies all
                  (hashInsert processed name) a₀ p₀ hlist).2.2.2 d hd
              · exact absurd hx₁ hnx
            · exact ih.2 pkg.dependencies all (hashInsert processed name) a₀ p₀
                hlist x hx hx₀ pkgx hgetx d hd
    refine ⟨hc, ?_⟩
    intro deps
    induction deps with
    | nil =>
      intro all processed a p h
      simp only [cleanup_collect_list, Option.some_inj, Prod.mk.injEq] at h
      obtain ⟨h1, h2⟩ := h
      subst h1; subst h2
      intro x hx hnx
      exact absurd hx hnx
    | cons d rest ihrest =>
      intro all processed a p h
      rw [cleanup_collect_list] at h
      cases hhead : cleanup_collect_dependencies_recursive (fuel + 1) ps d all
          processed with
      | none => rw [hhead] at h; simp at h
      | some st =>
        obtain ⟨a₁, p₁⟩ := st
        rw [hhead] at h
        simp only [] at h
        intro x hx hnx pkgx hgetx d₀ hd₀
        by_cases hx₁ : x ∈ p₁
        · have := hc d all processed a₁ p₁ hhead x hx₁ hnx pkgx hgetx d₀ hd₀
          exact ((cleanup_collect_mono (fuel + 1) ps).2 rest a₁ p₁ a p h).1 d₀ this
        · exact ihrest a₁ p₁ a p h x hx hx₁ pkgx hgetx d₀ hd₀

/-- The required-name set `cleanup_unused_packages` computes
(src/src/install/cleanup.rs:19-33): run the cleanup walk over
`config.all_dependencies()` from empty sets.  The `none` fallback is
unreachable at this fuel (see `cleanup_fuel_sufficient`). -/
def cleanup_required (ps : PackageSet) (allDeps : List PackageName) :
    List PackageName :=
  match cleanup_collect_list (collectFuel ps) ps allDeps [] [] with
  | some (a, _) => a
  | none => []

/-- The version-suffix-stripping of an installed directory name
(src/src/install/cleanup.rs:45-63): when the name contains a dash and its last
dash-separated part contains a dot, that part is dropped. -/
def clean_name (package_name : String) : String :=
  if package_name.contains '-' then
    let parts := package_name.splitOn "-"
    if parts.length ≥ 2 then
      match parts.getLast? with
      | some last_part =>
        if last_part.contains '.' then
          String.intercalate "-" parts.dropLast
        else package_name
      | none => package_name
    else package_name
  else package_name

/-- `cleanup_unused_packages` (src/src/install/cleanup.rs:10-84), over the
names of the subdirectories of the install directory: returns the removed
directory names — those whose version-stripped name is not in the required
set.  (Directory removal is modelled as succeeding; a failing removal only
logs a warning in the source.) -/
def cleanup_unused_packages (ps : PackageSet) (allDeps : List PackageName)
    (installedDirs : List String) : List String :=
  installedDirs.filter (fun dirName => clean_name dirName ∉ cleanup_required ps allDeps)

/-- `PackageQuery::local_packages` (src/src/registry/packages.rs:45-53). -/
def local_packages (ps : PackageSet) : List LocalPackage :=
  ps.filterMap (fun kv =>
    match kv.2 with
    | .Local p => some p
    | _ => none)

/-- The still-required set as claim C7 words it (following the spec, not the
source): the remaining direct dependencies — together with the union of all
workspace member packages' dependencies when operating at a workspace root —
expanded transitively. -/
def specStillRequired (ps : PackageSet) (directDeps : List PackageName)
    (isWorkspaceRoot : Bool) (x : PackageName) : Prop :=
  ReachableFrom ps
    (directDeps ++
      (if isWorkspaceRoot then (local_packages ps).flatMap (fun p => p.dependencies)
       else [])) x

/-- What the cleanup walk's required set actually contains: exactly the names
present in the package set and reachable from the given direct dependencies. -/
theorem cleanup_required_iff (ps : PackageSet) (allDeps : List PackageName)
    (x : PackageName) :
    x ∈ cleanup_required ps allDeps ↔
      (ps.get x).isSome ∧ ReachableFrom ps allDeps x := by
  have hterm : cleanup_collect_list (collectFuel ps) ps allDeps [] [] ≠ none := by
    apply (cleanup_fuel_sufficient ps (collectFuel ps)).2
    have : collectMeasure ps [] = (psUniverse ps).toFinset.card := by
      unfold collectMeasure
      congr 1
      apply Finset.filter_true_of_mem
      intro y _
      simp
    rw [this]
    unfold collectFuel
    omega
  cases hrun : cleanup_collect_list (collectFuel ps) ps allDeps [] [] with
  | none => exact absurd hrun hterm
  | some st =>
    obtain ⟨a, p⟩ := st
    have hreq : cleanup_required ps allDeps = a := by
      unfold cleanup_required
      rw [hrun]
    obtain ⟨post1, post2, post3, post4⟩ :=
      (cleanup_collect_post (collectFuel ps) ps).2 allDeps [] [] a p hrun
    have hclosed :=
      (cleanup_collect_closed (collectFuel ps) ps).2 allDeps [] [] a p hrun
    rw [hreq]
    constructor
    · intro hx
      refine ⟨?_, ?_⟩
      · rcases post1 x hx with h | h
        · exact absurd h (List.not_mem_nil x)
        · exact h
      · rcases post3 x hx with h | h
        · exact absurd h (List.not_mem_nil x)
        · obtain ⟨d, hd, hrtg⟩ := h
          exact ⟨d, hd, hrtg⟩
    · rintro ⟨hpres, r, hr, hrtg⟩
      have hxp : x ∈ p := by
        clear hpres
        induction hrtg with
        | refl => exact post4 r hr
        | tail _ hbc ihp =>
          obtain ⟨pkgb, hgetb, hdep⟩ := hbc
          exact hclosed _ ihp (List.not_mem_nil _) pkgb hgetb _ hdep
      rcases post2 x hxp with h | h
      · exact absurd h (List.not_mem_nil x)
      · rcases h with h | h
        · exact h
        · rw [h] at hpres
          simp at hpres

/-- C7 (amended): cleanup's removal list contains an installed directory name
iff its version-stripped name is not in the required set; and the required set
contains exactly the names that are present in the package set and reachable
from the current config's dependency list (absent names are silently skipped
and contribute nothing; no workspace union is taken). -/
theorem C7_cleanup_amended :
    ∀ (ps : PackageSet) (allDeps : List PackageName) (installedDirs : List String),
      (∀ dirName, dirName ∈ cleanup_unused_packages ps allDeps installedDirs ↔
        dirName ∈ installedDirs ∧
          clean_name dirName ∉ cleanup_required ps allDeps) ∧
      (∀ x, x ∈ cleanup_required ps allDeps ↔
        (ps.get x).isSome ∧ ReachableFrom ps allDeps x) := by
  intro ps allDeps installedDirs
  constructor
  · intro dirName
    unfold cleanup_unused_packages
    rw [List.mem_filter]
    simp
  · intro x
    exact cleanup_required_iff ps allDeps x

/-- A workspace member package m that depends on x. -/
def psWLocal : LocalPackage :=
  { name := "m", dependencies := ["x"], test_dependencies := [], path := "ws/m" }

/-- A package set with a local workspace member m → x, both present. -/
def psW : PackageSet :=
  [("m", .Local psWLocal),
   ("x", .Remote { name := "x", dependencies := [], repo := "r", version := "v1" })]

/-- Counterexample to C7 as stated: at a workspace root whose own config lists
no remaining dependencies while workspace member m still depends on x, cleanup
deletes the installed directory x even though x is in the claim's
still-required set (the transitive expansion that takes the union of workspace
members' dependencies). -/
theorem C7_cleanup_counterexample :
    cleanup_unused_packages psW [] ["x"] = ["x"] ∧
      specStillRequired psW [] true "x" := by
  constructor
  · have hreq : cleanup_required psW [] = [] := by
      unfold cleanup_required
      rw [cleanup_collect_list]
    unfold cleanup_unused_packages
    rw [hreq]
    simp
  · refine ⟨"x", ?_, Relation.ReflTransGen.refl⟩
    simp [local_packages, psW, psWLocal]

/-- Witness for the amended C7 at the counterexample instance: x's directory
is removed because the source's required set (no workspace union) is empty. -/
theorem C7_cleanup_amended_witness :
    ("x" ∈ cleanup_unused_packages psW [] ["x"] ↔
      "x" ∈ ["x"] ∧ clean_name "x" ∉ cleanup_required psW []) ∧
    ("x" ∈ cleanup_required psW [] ↔
      (psW.get "x").isSome ∧ ReachableFrom psW [] "x") :=
  ⟨(C7_cleanup_amended psW [] ["x"]).1 "x", (C7_cleanup_amended psW [] ["x"]).2 "x"⟩

/-! ## Cycle detection (src/src/registry/packages.rs:151-223) -/

/-- The Rust `for dep in pkg.dependencies()` loop of `dfs_circular_detection`
with its early `return Some(cycle)`, modelled as a fold whose found-cycle and
out-of-fuel states are absorbing; `next` is the recursive search at the next
depth. -/
def dfsDepsLoop
    (next : PackageName → List PackageName →
      Option (Option (List String) × List PackageName)) :
    List PackageName → Option (Option (List String) × List PackageName) →
    Option (Option (List String) × List PackageName)
  | [], acc => acc
  | d :: rest, acc =>
    dfsDepsLoop next rest
      (match acc with
       | none => none
       | some (some cycle, v) => some (some cycle, v)
       | some (none, v) => next d v)

/-- `PackageQuery::dfs_circular_detection`
(src/src/registry/packages.rs:184-223).  A name already on the active path
signals a cycle, reported as the ordered sub-path from its first occurrence
plus the repeated name; an already fully-explored name is skipped; otherwise
the name is pushed on the path, its dependencies (when present) are searched
in order via `dfsDepsLoop`, and on falling through the name is popped and
marked visited.  `fuel` bounds the recursion depth; the outer `none` means it
ran out, which `dfsFuel` rules out. -/
def dfs_circular_detection (ps : PackageSet) :
    Nat → PackageName → List PackageName → List PackageName →
    Option (Option (List String) × List PackageName)
  | 0, _, _, _ => none
  | fuel + 1, current, visited, path =>
    if current ∈ path then
      some (some (path.drop (path.indexOf current) ++ [current]), visited)
    else if current ∈ visited then
      some (none, visited)
    else
      let explored :=
        match ps.get current with
        | none => some (none, visited)
        | some pkg =>
          dfsDepsLoop
            (fun d v => dfs_circular_detection ps fuel d v (path ++ [current]))
            pkg.dependencies (some (none, visited))
      match explored with
      | none => none
      | some (some cycle, v) => some (some cycle, v)
      | some (none, v) => some (none, hashInsert v current)

/-- Fuel sufficient for any depth-first search over `ps`: one level per
universe name on the path, plus one for a root outside the universe. -/
def dfsFuel (ps : PackageSet) : Nat := (psUniverse ps).toFinset.card + 2

/-- `PackageQuery::find_circular_dependency_chain`
(src/src/registry/packages.rs:176-181): run the DFS from a start package with
fresh visited and path sets.  (`check_circular_dependencies`,
src/src/registry/packages.rs:151-173, calls this once per local package and
only prints the chains.) -/
def find_circular_dependency_chain (ps : PackageSet) (start_package : PackageName) :
    Option (Option (List String)) :=
  (dfs_circular_detection ps (dfsFuel ps) start_package [] []).map (fun r => r.1)

/-- Local workspace package A depending on B. -/
def pkgA : LocalPackage :=
  { name := "A", dependencies := ["B"], test_dependencies := [], path := "ws/A" }

/-- Local workspace package B depending on C. -/
def pkgB : LocalPackage :=
  { name := "B", dependencies := ["C"], test_dependencies := [], path := "ws/B" }

/-- Local workspace package C depending on A. -/
def pkgC : LocalPackage :=
  { name := "C", dependencies := ["A"], test_dependencies := [], path := "ws/C" }

/-- Three local workspace packages forming the cycle A → B → C → A. -/
def psABC : PackageSet :=
  [("A", .Local pkgA), ("B", .Local pkgB), ("C", .Local pkgC)]

/-- The dependency loop cannot run out of fuel if no recursive search can. -/
theorem dfsDepsLoop_ne_none
    (next : PackageName → List PackageName →
      Option (Option (List String) × List PackageName))
    (deps : List PackageName)
    (hnext : ∀ d ∈ deps, ∀ v, next d v ≠ none) :
    ∀ acc, acc ≠ none → dfsDepsLoop next deps acc ≠ none := by
  induction deps with
  | nil => intro acc hacc; simpa [dfsDepsLoop] using hacc
  | cons d rest ihd =>
    intro acc hacc
    simp only [dfsDepsLoop]
    apply ihd (fun d₀ hd₀ v => hnext d₀ (by simp [hd₀]) v)
    cases acc with
    | none => exact absurd rfl hacc
    | some r =>
      obtain ⟨c, v⟩ := r
      cases c with
      | some cycle => simp
      | none => simpa using hnext d (by simp) v

/-- If the dependency loop reports a cycle, either the initial state already
did or some recursive search did. -/
theorem dfsDepsLoop_sound {C : Prop}
    (next : PackageName → List PackageName →
      Option (Option (List String) × List PackageName))
    (deps : List PackageName)
    (hnext : ∀ d ∈ deps, ∀ v c v₀, next d v = some (some c, v₀) → C) :
    ∀ acc, (∀ c v₀, acc = some (some c, v₀) → C) →
      ∀ c v₀, dfsDepsLoop next deps acc = some (some c, v₀) → C := by
  induction deps with
  | nil =>
    intro acc hacc c v₀ h
    exact hacc c v₀ (by simpa [dfsDepsLoop] using h)
  | cons d rest ihd =>
    intro acc hacc c v₀ h
    simp only [dfsDepsLoop] at h
    refine ihd (fun d₀ hd₀ v => hnext d₀ (by simp [hd₀]) v) _ ?_ c v₀ h
    cases acc with
    | none => intro c₁ v₁ h₁; simp at h₁
    | some r =>
      obtain ⟨c₂, v₂⟩ := r
      cases c₂ with
      | some cycle => intro c₁ v₁ h₁; exact hacc cycle v₂ rfl
      | none =>
        intro c₁ v₁ h₁
        exact hnext d (by simp) v₂ c₁ v₁ h₁

/-- With fuel exceeding the path measure, the DFS never runs out of fuel. -/
theorem dfs_fuel_sufficient (ps : PackageSet) : ∀ (fuel : Nat)
    (current : PackageName) (visited path : List PackageName),
    collectMeasure ps path < fuel →
    dfs_circular_detection ps fuel current visited path ≠ none := by
  intro fuel
  induction fuel with
  | zero => intro _ _ _ h; exact absurd h (Nat.not_lt_zero _)
  | succ fuel ih =>
    intro current visited path hlt
    rw [dfs_circular_detection]
    by_cases hp : current ∈ path
    · simp [hp]
    · rw [if_neg hp]
      by_cases hv : current ∈ visited
      · simp [hv]
      · rw [if_neg hv]
        simp only []
        cases hget : ps.get current with
        | none => simp
        | some pkg =>
          simp only []
          have hm : collectMeasure ps (path ++ [current]) < fuel := by
            have := @collectMeasure_lt ps path (path ++ [current]) current
              (fun x hx => by simp [hx]) (by simp) hp (mem_psUniverse_of_get hget)
            omega
          have hne := dfsDepsLoop_ne_none
            (fun d v => dfs_circular_detection ps fuel d v (path ++ [current]))
            pkg.dependencies
            (fun d _ v => ih d v (path ++ [current]) hm)
            (some (none, visited)) (by simp)
          cases hrun : dfsDepsLoop
              (fun d v => dfs_circular_detection ps fuel d v (path ++ [current]))
              pkg.dependencies (some (none, visited)) with
          | none => exact absurd hrun hne
          | some r =>
            obtain ⟨c, v₂⟩ := r
            cases c <;> simp

/-- A nonempty dependency chain from a name on the path back to itself yields
a dependency cycle. -/
theorem cyclic_of_chain_mem {ps : PackageSet} {path : List PackageName}
    {current : PackageName}
    (hchain : List.Chain' (depStep ps) (path ++ [current])) (hmem : current ∈ path) :
    ∃ n, Relation.TransGen (depStep ps) n n := by
  obtain ⟨s, t, rfl⟩ := List.append_of_mem hmem
  have hsuffix : List.Chain' (depStep ps) (current :: (t ++ [current])) := by
    apply hchain.suffix
    exact ⟨s, by simp⟩
  have hch : List.Chain (depStep ps) current (t ++ [current]) := hsuffix
  cases htc : t ++ [current] with
  | nil => exact absurd htc (by simp)
  | cons x l₀ =>
    rw [htc, List.chain_cons] at hch
    have hlast? : (x :: l₀).getLast? = some current := by
      rw [← htc]
      exact List.getLast?_concat t
    have hlast : (x :: l₀).getLast (by simp) = current := by
      rw [List.getLast?_eq_getLast (x :: l₀) (by simp)] at hlast?
      injection hlast?
    exact ⟨current, Relation.TransGen.head' hch.1
      (List.relationReflTransGen_of_exists_chain l₀ hch.2 hlast)⟩

/-- If the DFS reports a cycle from a state whose active path (with the
current name appended) is a dependency chain, the graph has a cycle. -/
theorem dfs_sound (ps : PackageSet) : ∀ (fuel : Nat) (current : PackageName)
    (visited path : List PackageName) (cycle : List String)
    (v : List PackageName),
    List.Chain' (depStep ps) (path ++ [current]) →
    dfs_circular_detection ps fuel current visited path = some (some cycle, v) →
    ∃ n, Relation.TransGen (depStep ps) n n := by
  intro fuel
  induction fuel with
  | zero =>
    intro current visited path cycle v _ h
    simp [dfs_circular_detection] at h
  | succ fuel ih =>
    intro current visited path cycle v hchain h
    rw [dfs_circular_detection] at h
    by_cases hp : current ∈ path
    · exact cyclic_of_chain_mem hchain hp
    · rw [if_neg hp] at h
      by_cases hv : current ∈ visited
      · rw [if_pos hv] at h
        simp at h
      · rw [if_neg hv] at h
        simp only [] at h
        cases hget : ps.get current with
        | none =>
          rw [hget] at h
          simp at h
        | some pkg =>
          rw [hget] at h
          simp only [] at h
          have hnext : ∀ d ∈ pkg.dependencies, ∀ (v₀ : List PackageName)
              (c₀ : List String) (v₁ : List PackageName),
              dfs_circular_detection ps fuel d v₀ (path ++ [current]) =
                some (some c₀, v₁) →
              ∃ n, Relation.TransGen (depStep ps) n n := by
            intro d hd v₀ c₀ v₁ h₀
            have hchain' :
                List.Chain' (depStep ps) ((path ++ [current]) ++ [d]) := by
              rw [List.chain'_append]
              refine ⟨hchain, by simp, ?_⟩
              intro x hx y hy
              simp only [List.getLast?_concat, Option.mem_def,
                Option.some_inj] at hx
              simp only [List.head?_cons, Option.mem_def, Option.some_inj] at hy
              subst hx; subst hy
              exact ⟨pkg, hget, hd⟩
            exact ih d v₀ (path ++ [current]) c₀ v₁ hchain' h₀
          cases hrun : dfsDepsLoop
              (fun d v => dfs_circular_detection ps fuel d v (path ++ [current]))
              pkg.dependencies (some (none, visited)) with
          | none => rw [hrun] at h; simp at h
          | some r =>
            obtain ⟨c, v₂⟩ := r
            cases c with
            | some cycle₀ =>
              exact dfsDepsLoop_sound _ pkg.dependencies hnext
                (some (none, visited)) (fun c₀ v₀ h₀ => by simp at h₀)
                cycle₀ v₂ hrun
            | none => rw [hrun] at h; simp at h

/-- C8: for the local-package graph A → B → C → A the detector terminates and
returns the cycle ["A", "B", "C", "A"] — the ordered sub-path from the
repeated name's first occurrence back to the repeated name, containing exactly
the names A, B, C; and for every acyclic dependency graph it terminates and
returns no cycle from every start. -/
theorem C8_cycle_detection :
    (find_circular_dependency_chain psABC "A" = some (some ["A", "B", "C", "A"]) ∧
      (["A", "B", "C", "A"] : List String).toFinset =
        ({"A", "B", "C"} : Finset String)) ∧
    (∀ ps : PackageSet, (¬ ∃ n, Relation.TransGen (depStep ps) n n) →
      ∀ start, find_circular_dependency_chain ps start = some none) := by
  constructor
  · exact ⟨by decide, by decide⟩
  · intro ps hacyc start
    unfold find_circular_dependency_chain
    cases hrun : dfs_circular_detection ps (dfsFuel ps) start [] [] with
    | none =>
      exfalso
      refine dfs_fuel_sufficient ps (dfsFuel ps) start [] [] ?_ hrun
      have : collectMeasure ps [] ≤ (psUniverse ps).toFinset.card :=
        Finset.card_le_card (Finset.filter_subset _ _)
      unfold dfsFuel
      omega
    | some r =>
      obtain ⟨c, v⟩ := r
      cases c with
      | none => simp
      | some cycle =>
        exact absurd
          (dfs_sound ps (dfsFuel ps) start [] [] cycle v (by simp) hrun) hacyc

/-- Edge-decreasing rank functions certify acyclicity. -/
theorem acyclic_of_rank {ps : PackageSet} (f : PackageName → Nat)
    (hf : ∀ a b, depStep ps a b → f b < f a) :
    ¬ ∃ n, Relation.TransGen (depStep ps) n n := by
  rintro ⟨n, htg⟩
  have hlt : ∀ a b, Relation.TransGen (depStep ps) a b → f b < f a := by
    intro a b h
    induction h with
    | single h => exact hf _ _ h
    | tail _ h ihl => exact lt_trans (hf _ _ h) ihl
  exact lt_irrefl _ (hlt n n htg)

/-- A rank function for `demoPS` (a → b → c, d → missing). -/
def demoRank : PackageName → Nat := fun s =>
  if s = "a" then 3 else if s = "b" then 2
  else if s = "c" then 1 else if s = "d" then 1 else 0

/-- Witness for C8 at the acyclic set `demoPS`: the detector returns no cycle. -/
theorem C8_cycle_detection_witness :
    find_circular_dependency_chain demoPS "a" = some none := by
  apply C8_cycle_detection.2 demoPS
  · apply acyclic_of_rank demoRank
    rintro a b ⟨pkg, hget, hdep⟩
    simp only [demoPS, PackageSet.get, mapGet] at hget
    split at hget
    · rename_i h
      injection hget with hget
      subst hget
      simp only [Package.dependencies] at hdep
      rw [List.mem_singleton] at hdep
      subst hdep
      rw [← h]
      decide
    · split at hget
      · rename_i h
        injection hget with hget
        subst hget
        simp only [Package.dependencies] at hdep
        rw [List.mem_singleton] at hdep
        subst hdep
        rw [← h]
        decide
      · split at hget
        · rename_i h
          injection hget with hget
          subst hget
          simp only [Package.dependencies] at hdep
          simp at hdep
        · split at hget
          · rename_i h
            injection hget with hget
            subst hget
            simp only [Package.dependencies, demoDPkg] at hdep
            rw [List.mem_singleton] at hdep
            subst hdep
            rw [← h]
            decide
          · exact Option.noConfusion hget

/-! ## Transitive-dependency query (src/src/registry/packages.rs:97-127) -/

/-- The package set is well formed when every entry's stored package carries
the entry's key as its name — how every `PackageSet` is built (the merge
inserts each package under its own name). -/
def PSWellFormed (ps : PackageSet) : Prop :=
  ∀ k pkg, ps.get k = some pkg → pkg.name = k

/-- The `for dep in pkg.dependencies()` loop of
`get_transitive_dependencies`: a dependency not yet visited is marked visited
and pushed on the back of the queue. -/
def bfsEnqueue (visited queue : List PackageName) (deps : List PackageName) :
    List PackageName × List PackageName :=
  deps.foldl
    (fun acc dep =>
      if dep ∈ acc.1 then acc else (hashInsert acc.1 dep, acc.2 ++ [dep]))
    (visited, queue)

/-- The `while let Some(current_name) = queue.pop_front()` loop of
`get_transitive_dependencies` (src/src/registry/packages.rs:109-124): pop the
front name; a present package is pushed to the result (unless it is the root)
and its dependencies enqueued; an absent name is silently skipped.  `fuel`
bounds the number of iterations; the outer `none` means it ran out, which
`bfsFuel` rules out. -/
def bfs_traverse (ps : PackageSet) (root : PackageName) :
    Nat → List PackageName → List PackageName → List Package →
    Option (List Package)
  | 0, _, _, _ => none
  | fuel + 1, queue, visited, result =>
    match queue with
    | [] => some result
    | current :: rest =>
      match ps.get current with
      | none => bfs_traverse ps root fuel rest visited result
      | some pkg =>
        let result' := if current ≠ root then result ++ [pkg] else result
        let vq := bfsEnqueue visited rest pkg.dependencies
        bfs_traverse ps root fuel vq.2 vq.1 result'

/-- Fuel sufficient for any breadth-first traversal over `ps`: each iteration
consumes a queue entry, and entries are enqueued at most once per name. -/
def bfsFuel (ps : PackageSet) : Nat := (psUniverse ps).toFinset.card + 2

/-- `PackageQuery::get_transitive_dependencies`
(src/src/registry/packages.rs:97-127): fail if the root is absent, else run
the traversal seeded with the root marked visited and queued. -/
def get_transitive_dependencies (ps : PackageSet) (name : PackageName) :
    Except String (Option (List Package)) :=
  match ps.get name with
  | none => .error ("Package '" ++ name ++ "' not found in package set")
  | some _root => .ok (bfs_traverse ps name (bfsFuel ps) [name] [name] [])

/-- What the enqueue fold does: it appends to the queue a duplicate-free block
of previously unvisited dependency names and marks exactly those visited. -/
theorem bfsEnqueue_spec : ∀ (deps visited queue : List PackageName),
    ∃ added : List PackageName,
      (bfsEnqueue visited queue deps).2 = queue ++ added ∧
      (∀ x, x ∈ (bfsEnqueue visited queue deps).1 ↔ x ∈ visited ∨ x ∈ added) ∧
      (∀ x ∈ added, x ∈ deps ∧ x ∉ visited) ∧
      added.Nodup ∧
      (∀ d ∈ deps, d ∈ (bfsEnqueue visited queue deps).1) := by
  intro deps
  induction deps with
  | nil =>
    intro visited queue
    exact ⟨[], by simp [bfsEnqueue], fun x => by simp [bfsEnqueue],
      by simp, by simp, by simp⟩
  | cons dep rest ih =>
    intro visited queue
    by_cases hmem : dep ∈ visited
    · obtain ⟨added, h1, h2, h3, h4, h5⟩ := ih visited queue
      refine ⟨added, ?_, ?_, ?_, h4, ?_⟩
      · simpa [bfsEnqueue, hmem] using h1
      · intro x
        simpa [bfsEnqueue, hmem] using h2 x
      · intro x hx
        exact ⟨List.mem_cons_of_mem _ (h3 x hx).1, (h3 x hx).2⟩
      · intro d hd
        rcases List.mem_cons.mp hd with hd | hd
        · subst hd
          simpa [bfsEnqueue, hmem] using (h2 d).mpr (Or.inl hmem)
        · simpa [bfsEnqueue, hmem] using h5 d hd
    · obtain ⟨added, h1, h2, h3, h4, h5⟩ := ih (hashInsert visited dep) (queue ++ [dep])
      have hq : (bfsEnqueue visited queue (dep :: rest)).2 =
          (bfsEnqueue (hashInsert visited dep) (queue ++ [dep]) rest).2 := by
        simp [bfsEnqueue, hmem]
      have hv : (bfsEnqueue visited queue (dep :: rest)).1 =
          (bfsEnqueue (hashInsert visited dep) (queue ++ [dep]) rest).1 := by
        simp [bfsEnqueue, hmem]
      refine ⟨dep :: added, ?_, ?_, ?_, ?_, ?_⟩
      · rw [hq, h1]; simp
      · intro x
        rw [hv, h2 x, mem_hashInsert]
        constructor
        · rintro ((h | h) | h)
          · exact Or.inr (by simp [h])
          · exact Or.inl h
          · exact Or.inr (by simp [h])
        · rintro (h | h)
          · exact Or.inl (Or.inr h)
          · rcases List.mem_cons.mp h with h | h
            · exact Or.inl (Or.inl h)
            · exact Or.inr h
      · intro x hx
        rcases List.mem_cons.mp hx with hx | hx
        · subst hx; exact ⟨by simp, hmem⟩
        · obtain ⟨hd, hnv⟩ := h3 x hx
          refine ⟨by simp [hd], fun hxv => hnv (mem_hashInsert.mpr (Or.inr hxv))⟩
      · refine List.nodup_cons.mpr ⟨?_, h4⟩
        intro hdep
        exact (h3 dep hdep).2 (mem_hashInsert.mpr (Or.inl rfl))
      · intro d hd
        rcases List.mem_cons.mp hd with hd | hd
        · subst hd
          rw [hv]
          exact (h2 d).mpr (Or.inl (mem_hashInsert.mpr (Or.inl rfl)))
        · rw [hv]
          exact h5 d hd

/-- The enqueue fold does not increase the traversal measure: every queue
entry it adds is paid for by a fresh visited universe name. -/
theorem bfsEnqueue_measure (ps : PackageSet) :
    ∀ (deps visited queue : List PackageName),
      (∀ d ∈ deps, d ∈ psUniverse ps) →
      collectMeasure ps (bfsEnqueue visited queue deps).1 +
          (bfsEnqueue visited queue deps).2.length ≤
        collectMeasure ps visited + queue.length := by
  intro deps
  induction deps with
  | nil => intro visited queue _; simp [bfsEnqueue]
  | cons dep rest ih =>
    intro visited queue hdeps
    by_cases hmem : dep ∈ visited
    · have := ih visited queue (fun d hd => hdeps d (by simp [hd]))
      simpa [bfsEnqueue, hmem] using this
    · have hstep := ih (hashInsert visited dep) (queue ++ [dep])
        (fun d hd => hdeps d (by simp [hd]))
      have hlt : collectMeasure ps (hashInsert visited dep) <
          collectMeasure ps visited :=
        collectMeasure_lt (fun x hx => mem_hashInsert.mpr (Or.inr hx))
          (mem_hashInsert.mpr (Or.inl rfl)) hmem (hdeps dep (by simp))
      have : (bfsEnqueue visited queue (dep :: rest)) =
          bfsEnqueue (hashInsert visited dep) (queue ++ [dep]) rest := by
        simp [bfsEnqueue, hmem]
      rw [this]
      calc collectMeasure ps (bfsEnqueue (hashInsert visited dep)
            (queue ++ [dep]) rest).1 +
          (bfsEnqueue (hashInsert visited dep) (queue ++ [dep]) rest).2.length ≤
          collectMeasure ps (hashInsert visited dep) + (queue ++ [dep]).length :=
            hstep
        _ ≤ collectMeasure ps visited + queue.length := by
            simp only [List.length_append, List.length_singleton]
            omega

/-- With fuel exceeding the measure, the traversal never runs out of fuel. -/
theorem bfs_fuel_sufficient (ps : PackageSet) (root : PackageName) :
    ∀ (fuel : Nat) (queue visited : List PackageName) (result : List Package),
      queue.length + collectMeasure ps visited < fuel →
      bfs_traverse ps root fuel queue visited result ≠ none := by
  intro fuel
  induction fuel with
  | zero => intro _ _ _ h; exact absurd h (Nat.not_lt_zero _)
  | succ fuel ih =>
    intro queue visited result hlt
    cases queue with
    | nil => simp [bfs_traverse]
    | cons current rest =>
      simp only [bfs_traverse]
      cases hget : ps.get current with
      | none =>
        apply ih rest visited result
        simp only [List.length_cons] at hlt
        omega
      | some pkg =>
        simp only []
        apply ih
        have hdeps : ∀ d ∈ pkg.dependencies, d ∈ psUniverse ps :=
          fun d hd => dep_mem_psUniverse hget hd
        have := bfsEnqueue_measure ps pkg.dependencies visited rest hdeps
        simp only [List.length_cons] at hlt
        omega

/-- Loop invariants of the traversal, and what they give at termination: the
result names are duplicate-free, every result entry is the present package of
its name, and the result names are exactly the present names reachable from
the root, root excluded. -/
theorem bfs_invariant (ps : PackageSet) (root : PackageName)
    (hwf : PSWellFormed ps) :
    ∀ (fuel : Nat) (queue visited : List PackageName) (result : List Package)
      (r : List Package),
      root ∈ visited →
      (∀ x ∈ queue, x ∈ visited) →
      List.Nodup (result.map Package.name ++ queue) →
      (∀ pkg ∈ result, pkg.name ∈ visited) →
      (∀ pkg ∈ result, ps.get pkg.name = some pkg ∧ pkg.name ≠ root) →
      (∀ x ∈ visited, Relation.ReflTransGen (depStep ps) root x) →
      (∀ x ∈ visited, x ∈ queue ∨ ∀ pkgx, ps.get x = some pkgx →
        ∀ d ∈ pkgx.dependencies, d ∈ visited) →
      (∀ x, (∃ pkg ∈ result, pkg.name = x) ↔
        (x ∈ visited ∧ x ∉ queue ∧ x ≠ root ∧ (ps.get x).isSome)) →
      bfs_traverse ps root fuel queue visited result = some r →
      List.Nodup (r.map Package.name) ∧
      (∀ pkg ∈ r, ps.get pkg.name = some pkg ∧ pkg.name ≠ root) ∧
      (∀ x, (∃ pkg ∈ r, pkg.name = x) ↔
        (Relation.ReflTransGen (depStep ps) root x ∧ x ≠ root ∧
          (ps.get x).isSome)) := by
  intro fuel
  induction fuel with
  | zero =>
    intro queue visited result r _ _ _ _ _ _ _ _ hrun
    simp [bfs_traverse] at hrun
  | succ fuel ih =>
    intro queue visited result r h0 h1 h2 h3 h4 h5 h6 h7 hrun
    cases queue with
    | nil =>
      simp only [bfs_traverse, Option.some_inj] at hrun
      subst hrun
      have hvis : ∀ x, Relation.ReflTransGen (depStep ps) root x → x ∈ visited := by
        intro x hx
        induction hx with
        | refl => exact h0
        | tail _ hbc ihr =>
          obtain ⟨pkgb, hgetb, hdep⟩ := hbc
          rcases h6 _ ihr with hq | hcl
          · exact absurd hq (List.not_mem_nil _)
          · exact hcl pkgb hgetb _ hdep
      refine ⟨by simpa using h2, h4, ?_⟩
      intro x
      rw [h7 x]
      constructor
      · rintro ⟨hv, _, hr, hp⟩
        exact ⟨h5 x hv, hr, hp⟩
      · rintro ⟨hreach, hr, hp⟩
        exact ⟨hvis x hreach, List.not_mem_nil x, hr, hp⟩
    | cons current rest =>
      simp only [bfs_traverse] at hrun
      cases hget : ps.get current with
      | none =>
        rw [hget] at hrun
        simp only [] at hrun
        refine ih rest visited result r h0
          (fun x hx => h1 x (List.mem_cons_of_mem _ hx))
          (h2.sublist (List.Sublist.append_left (List.sublist_cons_of_sublist _ (List.Sublist.refl _)) _))
          h3 h4 h5 ?_ ?_ hrun
        · intro x hx
          rcases h6 x hx with hq | hcl
          · rcases List.mem_cons.mp hq with hq₀ | hq₀
            · refine Or.inr ?_
              intro pkgx hgx
              rw [hq₀, hget] at hgx
              exact absurd hgx (by simp)
            · exact Or.inl hq₀
          · exact Or.inr hcl
        · intro x
          rw [h7 x]
          constructor
          · rintro ⟨hv, hq, hr, hp⟩
            exact ⟨hv, fun hx => hq (List.mem_cons_of_mem _ hx), hr, hp⟩
          · rintro ⟨hv, hq, hr, hp⟩
            refine ⟨hv, ?_, hr, hp⟩
            intro hx
            rcases List.mem_cons.mp hx with hx₀ | hx₀
            · rw [hx₀, hget] at hp
              simp at hp
            · exact hq hx₀
      | some pkg =>
        rw [hget] at hrun
        simp only [] at hrun
        obtain ⟨added, hq, hviff, hadd, haddnodup, hall⟩ :=
          bfsEnqueue_spec pkg.dependencies visited rest
        have hcurv : current ∈ visited := h1 current (by simp)
        have hname : pkg.name = current := hwf current pkg hget
        have hsubv : ∀ x ∈ visited, x ∈ (bfsEnqueue visited rest pkg.dependencies).1 :=
          fun x hx => (hviff x).mpr (Or.inl hx)
        have hq'sub : ∀ x ∈ (bfsEnqueue visited rest pkg.dependencies).2,
            x ∈ (bfsEnqueue visited rest pkg.dependencies).1 := by
          intro x hx
          rw [hq] at hx
          rcases List.mem_append.mp hx with hx₀ | hx₀
          · exact hsubv x (h1 x (List.mem_cons_of_mem _ hx₀))
          · exact (hviff x).mpr (Or.inr hx₀)
        have hreach' : ∀ x ∈ (bfsEnqueue visited rest pkg.dependencies).1,
            Relation.ReflTransGen (depStep ps) root x := by
          intro x hx
          rcases (hviff x).mp hx with hx₀ | hx₀
          · exact h5 x hx₀
          · exact (h5 current hcurv).tail ⟨pkg, hget, (hadd x hx₀).1⟩
        have hclosed' : ∀ x ∈ (bfsEnqueue visited rest pkg.dependencies).1,
            x ∈ (bfsEnqueue visited rest pkg.dependencies).2 ∨
            ∀ pkgx, ps.get x = some pkgx → ∀ d ∈ pkgx.dependencies,
              d ∈ (bfsEnqueue visited rest pkg.dependencies).1 := by
          intro x hx
          rcases (hviff x).mp hx with hx₀ | hx₀
          · rcases h6 x hx₀ with hq₀ | hcl
            · rcases List.mem_cons.mp hq₀ with hq₁ | hq₁
              · refine Or.inr ?_
                intro pkgx hgx d hd
                rw [hq₁, hget] at hgx
                injection hgx with hgx
                subst hgx
                exact hall d hd
              · exact Or.inl (by rw [hq]; exact List.mem_append.mpr (Or.inl hq₁))
            · exact Or.inr fun pkgx hgx d hd => hsubv d (hcl pkgx hgx d hd)
          · exact Or.inl (by rw [hq]; exact List.mem_append.mpr (Or.inr hx₀))
        have hnamesv : ∀ x ∈ result.map Package.name, x ∈ visited := by
          intro x hx
          obtain ⟨pkg₀, hp₀, hpx⟩ := List.mem_map.mp hx
          exact hpx ▸ h3 pkg₀ hp₀
        have hcurrest : current ∉ rest := by
          have := (List.Nodup.of_append_right h2)
          exact (List.nodup_cons.mp this).1
        have hcadded : current ∉ added := fun hc => (hadd current hc).2 hcurv
        by_cases hcr : current = root
        · have hres : (if current ≠ root then result ++ [pkg] else result) =
              result := if_neg (by simp [hcr])
          rw [hres] at hrun
          refine ih _ _ result r (hsubv root h0) hq'sub ?_
            (fun pkg₀ hp₀ => hsubv _ (h3 pkg₀ hp₀)) h4 hreach' hclosed' ?_ hrun
          · rw [hq, ← List.append_assoc]
            refine List.Nodup.append ?_ haddnodup ?_
            · exact h2.sublist (List.Sublist.append_left (List.sublist_cons_of_sublist _ (List.Sublist.refl _)) _)
            · intro a ha hadd₀
              apply (hadd a hadd₀).2
              rcases List.mem_append.mp ha with ha₀ | ha₀
              · exact hnamesv a ha₀
              · exact h1 a (List.mem_cons_of_mem _ ha₀)
          · intro x
            rw [h7 x]
            constructor
            · rintro ⟨hv, hqx, hr, hp⟩
              refine ⟨hsubv x hv, ?_, hr, hp⟩
              intro hx
              rw [hq] at hx
              rcases List.mem_append.mp hx with hx₀ | hx₀
              · exact hqx (List.mem_cons_of_mem _ hx₀)
              · exact (hadd x hx₀).2 hv
            · rintro ⟨hv, hqx, hr, hp⟩
              have hxv : x ∈ visited := by
                rcases (hviff x).mp hv with hx₀ | hx₀
                · exact hx₀
                · exact absurd (by rw [hq]; exact List.mem_append.mpr (Or.inr hx₀))
                    hqx
              refine ⟨hxv, ?_, hr, hp⟩
              intro hx
              rcases List.mem_cons.mp hx with hx₀ | hx₀
              · exact hr (hx₀.trans hcr)
              · exact hqx (by rw [hq]; exact List.mem_append.mpr (Or.inl hx₀))
        · have hres : (if current ≠ root then result ++ [pkg] else result) =
              result ++ [pkg] := if_pos hcr
          rw [hres] at hrun
          refine ih _ _ (result ++ [pkg]) r (hsubv root h0) hq'sub ?_ ?_ ?_
            hreach' hclosed' ?_ hrun
          · rw [hq]
            have heq : (result ++ [pkg]).map Package.name ++ (rest ++ added) =
                (result.map Package.name ++ current :: rest) ++ added := by
              simp [hname]
            rw [heq]
            refine List.Nodup.append h2 haddnodup ?_
            intro a ha hadd₀
            apply (hadd a hadd₀).2
            rcases List.mem_append.mp ha with ha₀ | ha₀
            · exact hnamesv a ha₀
            · rcases List.mem_cons.mp ha₀ with ha₁ | ha₁
              · exact ha₁ ▸ hcurv
              · exact h1 a (List.mem_cons_of_mem _ ha₁)
          · intro pkg₀ hp₀
            rcases List.mem_append.mp hp₀ with hp₁ | hp₁
            · exact hsubv _ (h3 pkg₀ hp₁)
            · rw [List.mem_singleton.mp hp₁, hname]
              exact hsubv _ hcurv
          · intro pkg₀ hp₀
            rcases List.mem_append.mp hp₀ with hp₁ | hp₁
            · exact h4 pkg₀ hp₁
            · rw [List.mem_singleton.mp hp₁, hname]
              exact ⟨hget, hcr⟩
          · intro x
            constructor
            · rintro ⟨pkg₀, hp₀, hpx⟩
              rcases List.mem_append.mp hp₀ with hp₁ | hp₁
              · obtain ⟨hv, hqx, hr, hp⟩ := (h7 x).mp ⟨pkg₀, hp₁, hpx⟩
                refine ⟨hsubv x hv, ?_, hr, hp⟩
                intro hx
                rw [hq] at hx
                rcases List.mem_append.mp hx with hx₀ | hx₀
                · exact hqx (List.mem_cons_of_mem _ hx₀)
                · exact (hadd x hx₀).2 hv
              · rw [List.mem_singleton.mp hp₁, hname] at hpx
                subst hpx
                refine ⟨hsubv _ hcurv, ?_, hcr, by simp [hget]⟩
                intro hx
                rw [hq] at hx
                rcases List.mem_append.mp hx with hx₀ | hx₀
                · exact hcurrest hx₀
                · exact hcadded hx₀
            · rintro ⟨hv, hqx, hr, hp⟩
              have hxv : x ∈ visited := by
                rcases (hviff x).mp hv with hx₀ | hx₀
                · exact hx₀
                · exact absurd (by rw [hq]; exact List.mem_append.mpr (Or.inr hx₀))
                    hqx
              by_cases hxc : x = current
              · exact ⟨pkg, by simp, by rw [hname, hxc]⟩
              · have hnx : x ∉ current :: rest := by
                  intro hx
                  rcases List.mem_cons.mp hx with hx₀ | hx₀
                  · exact hxc hx₀
                  · exact hqx (by rw [hq]; exact List.mem_append.mpr (Or.inl hx₀))
                obtain ⟨pkg₀, hp₀, hpx⟩ := (h7 x).mpr ⟨hxv, hnx, hr, hp⟩
                exact ⟨pkg₀, List.mem_append.mpr (Or.inl hp₀), hpx⟩

/-- C9: `get_transitive_dependencies(name)` fails with the not-found error
exactly when `name` is absent; otherwise the breadth-first traversal
terminates and returns a duplicate-free list of present packages whose names
are exactly the names reachable from `name` through present packages —
excluding the root itself, and silently skipping (never containing) names
absent from the set. -/
theorem C9_transitive_dependencies :
    ∀ (ps : PackageSet) (name : PackageName), PSWellFormed ps →
      (ps.get name = none →
        get_transitive_dependencies ps name =
          .error ("Package '" ++ name ++ "' not found in package set")) ∧
      (∀ pkg₀, ps.get name = some pkg₀ →
        ∃ l, get_transitive_dependencies ps name = .ok (some l) ∧
          l.Nodup ∧ List.Nodup (l.map Package.name) ∧
          (∀ pkg ∈ l, ps.get pkg.name = some pkg) ∧
          (∀ x, (∃ pkg ∈ l, pkg.name = x) ↔
            (Relation.ReflTransGen (depStep ps) name x ∧ x ≠ name ∧
              (ps.get x).isSome))) := by
  intro ps name hwf
  constructor
  · intro habs
    unfold get_transitive_dependencies
    rw [habs]
  · intro pkg₀ hget
    unfold get_transitive_dependencies
    rw [hget]
    cases hrun : bfs_traverse ps name (bfsFuel ps) [name] [name] [] with
    | none =>
      exfalso
      refine bfs_fuel_sufficient ps name (bfsFuel ps) [name] [name] [] ?_ hrun
      have : collectMeasure ps [name] ≤ (psUniverse ps).toFinset.card :=
        Finset.card_le_card (Finset.filter_subset _ _)
      unfold bfsFuel
      simp only [List.length_singleton]
      omega
    | some l =>
      obtain ⟨hnodupn, hpres, hiff⟩ :=
        bfs_invariant ps name hwf (bfsFuel ps) [name] [name] [] l
          (by simp)
          (by simp)
          (by simp)
          (by simp)
          (by simp)
          (by intro x hx; rw [List.mem_singleton.mp hx])
          (fun x hx => Or.inl hx)
          (by
            intro x
            constructor
            · rintro ⟨pkg, hpkg, _⟩
              exact absurd hpkg (List.not_mem_nil pkg)
            · rintro ⟨hv, _, hr, _⟩
              exact absurd (List.mem_singleton.mp hv) hr)
          hrun
      exact ⟨l, rfl, List.Nodup.of_map _ hnodupn, hnodupn,
        fun pkg hpkg => (hpres pkg hpkg).1, hiff⟩

/-- `demoPS` stores every package under its own name. -/
theorem demoPS_wellformed : PSWellFormed demoPS := by
  intro k pkg hget
  simp only [demoPS, PackageSet.get, mapGet] at hget
  split at hget
  · rename_i h
    injection hget with hget
    subst hget
    exact h
  · split at hget
    · rename_i h
      injection hget with hget
      subst hget
      exact h
    · split at hget
      · rename_i h
        injection hget with hget
        subst hget
        exact h
      · split at hget
        · rename_i h
          injection hget with hget
          subst hget
          exact h
        · exact Option.noConfusion hget

/-- Witness for C9 at `demoPS` from root a: the query succeeds with a
duplicate-free list of present packages characterised by reachability. -/
theorem C9_transitive_dependencies_witness :
    ∃ l, get_transitive_dependencies demoPS "a" = .ok (some l) ∧
      l.Nodup ∧ List.Nodup (l.map Package.name) ∧
      (∀ pkg ∈ l, demoPS.get pkg.name = some pkg) ∧
      (∀ x, (∃ pkg ∈ l, pkg.name = x) ↔
        (Relation.ReflTransGen (depStep demoPS) "a" x ∧ x ≠ "a" ∧
          (demoPS.get x).isSome)) :=
  (C9_transitive_dependencies demoPS "a" demoPS_wellformed).2
    (.Remote { name := "a", dependencies := ["b"], repo := "r", version := "v1" })
    (by decide)

/-! ## Batch result aggregation (src/src/install/manager.rs:153-192) -/

/-- `PackageInfo` (src/src/install/git.rs:9-15). -/
structure PackageInfo where
  name : PackageName
  version : String
  repo_url : String
  local_path : String
deriving DecidableEq, Repr

/-- `RegistryPackageInfo` (src/src/install/manager.rs:32-36). -/
structure RegistryPackageInfo where
  name : PackageName
  version : String
deriving DecidableEq, Repr

/-- `InstalledPackage` (src/src/install/manager.rs:26-30). -/
inductive InstalledPackage where
  | Git (p : PackageInfo)
  | Registry (p : RegistryPackageInfo)
deriving DecidableEq, Repr

/-- `InstalledPackage::name` (src/src/install/manager.rs:39-44). -/
def InstalledPackage.name : InstalledPackage → PackageName
  | .Git p => p.name
  | .Registry p => p.name

/-- `InstallResult` (src/src/install/manager.rs:20-24). -/
structure InstallResult where
  installed : List InstalledPackage
  errors : List String
deriving DecidableEq, Repr

/-- `InstallResult::is_success` (src/src/install/manager.rs:61-65). -/
def InstallResult.is_success (r : InstallResult) : Bool := r.errors.isEmpty

/-- The `for task in tasks { match task.await? ... }` collection loop
(src/src/install/manager.rs:153-180): every completed task outcome is
consumed in task order — a successful Some pushes its package, a successful
None (local package) is skipped, an error pushes its message; no outcome
stops the loop. -/
def aggregate_results (outcomes : List (Except String (Option InstalledPackage))) :
    List InstalledPackage × List String :=
  outcomes.foldl
    (fun acc outcome =>
      match outcome with
      | .ok (some package) => (acc.1 ++ [package], acc.2)
      | .ok none => acc
      | .error e => (acc.1, acc.2 ++ [e]))
    ([], [])

/-- The tail of `install_packages` (src/src/install/manager.rs:182-192): if
any error was collected, the batch is the failure whose message joins every
failing task's error text with a comma (terminal colouring of the joined text
is display-only and not modelled); otherwise the collected result. -/
def install_packages_result
    (outcomes : List (Except String (Option InstalledPackage))) :
    Except String InstallResult :=
  if (aggregate_results outcomes).2.isEmpty then
    .ok { installed := (aggregate_results outcomes).1
          errors := (aggregate_results outcomes).2 }
  else
    .error ("Failed to install dependencies: " ++
      String.intercalate ", " (aggregate_results outcomes).2)

/-- The whole batch (src/src/install/manager.rs:131-192): all per-package
tasks are spawned before any is awaited and none is cancelled, so every
task's on-disk effect is applied (each task owns its destination
subdirectory); a task is modelled as its completed outcome paired with its
effect on the set of installed directories.  The result aggregation performs
no disk operation at all. -/
def run_install_batch
    (tasks : List ((Except String (Option InstalledPackage)) ×
      (List PackageName → List PackageName)))
    (disk : List PackageName) :
    Except String InstallResult × List PackageName :=
  (install_packages_result (tasks.map Prod.fst),
   tasks.foldl (fun d t => t.2 d) disk)

/-- The failing texts of a list of outcomes, in task order. -/
def failing_texts (outcomes : List (Except String (Option InstalledPackage))) :
    List String :=
  outcomes.filterMap
    (fun o => match o with | .error e => some e | _ => none)

/-- The successfully installed packages of a list of outcomes, in task order. -/
def succeeded_packages
    (outcomes : List (Except String (Option InstalledPackage))) :
    List InstalledPackage :=
  outcomes.filterMap
    (fun o => match o with | .ok (some p) => some p | _ => none)

/-- The aggregation loop computes exactly the successes and the failing texts
of all outcomes, independent of their positions. -/
theorem aggregate_results_spec
    (outcomes : List (Except String (Option InstalledPackage))) :
    aggregate_results outcomes =
      (succeeded_packages outcomes, failing_texts outcomes) := by
  have key : ∀ (l : List (Except String (Option InstalledPackage)))
      (acc : List InstalledPackage × List String),
      l.foldl
        (fun acc outcome =>
          match outcome with
          | .ok (some package) => (acc.1 ++ [package], acc.2)
          | .ok none => acc
          | .error e => (acc.1, acc.2 ++ [e]))
        acc =
      (acc.1 ++ succeeded_packages l, acc.2 ++ failing_texts l) := by
    intro l
    induction l with
    | nil => intro acc; simp [succeeded_packages, failing_texts]
    | cons o rest ihr =>
      intro acc
      cases o with
      | error e =>
        simp only [List.foldl_cons, ihr]
        simp [succeeded_packages, failing_texts]
      | ok p =>
        cases p with
        | none =>
          simp only [List.foldl_cons, ihr]
          simp [succeeded_packages, failing_texts]
        | some pkg =>
          simp only [List.foldl_cons, ihr]
          simp [succeeded_packages, failing_texts]
  unfold aggregate_results
  rw [key]
  simp

/-- C5: the orchestrator consumes every spawned task's outcome (the collected
successes and failing texts are exactly those of all outcomes, in task
order — outcomes after a failure are still collected); when at least one task
failed the batch is the failure whose message is the comma-joined
concatenation of every failing task's error text; and the final disk state is
every task's effect applied, with no rollback of sibling successes. -/
theorem C5_partial_failure_batch :
    ∀ (tasks : List ((Except String (Option InstalledPackage)) ×
        (List PackageName → List PackageName)))
      (disk : List PackageName),
      aggregate_results (tasks.map Prod.fst) =
        (succeeded_packages (tasks.map Prod.fst),
         failing_texts (tasks.map Prod.fst)) ∧
      (failing_texts (tasks.map Prod.fst) ≠ [] →
        (run_install_batch tasks disk).1 =
          .error ("Failed to install dependencies: " ++
            String.intercalate ", " (failing_texts (tasks.map Prod.fst)))) ∧
      (failing_texts (tasks.map Prod.fst) = [] →
        (run_install_batch tasks disk).1 =
          .ok { installed := succeeded_packages (tasks.map Prod.fst)
                errors := [] }) ∧
      (run_install_batch tasks disk).2 = tasks.foldl (fun d t => t.2 d) disk := by
  intro tasks disk
  have hagg := aggregate_results_spec (tasks.map Prod.fst)
  refine ⟨hagg, ?_, ?_, rfl⟩
  · intro hne
    unfold run_install_batch install_packages_result
    rw [hagg]
    simp only []
    rw [if_neg (by simpa using hne)]
  · intro hnil
    unfold run_install_batch install_packages_result
    rw [hagg]
    simp only []
    rw [if_pos (by simpa using hnil)]
    simp [hnil]

/-- A batch with one failing task between two successes. -/
def demoTasks : List ((Except String (Option InstalledPackage)) ×
    (List PackageName → List PackageName)) :=
  [(.ok (some (.Registry { name := "y", version := "1.0.0" })),
      fun d => "y" :: d),
   (.error "Failed to fetch package x from registry: HTTP 404", fun d => d),
   (.ok (some (.Registry { name := "z", version := "1.0.0" })),
      fun d => "z" :: d)]

/-- Witness for C5 at `demoTasks`: the batch reports the failing text while
both successes' disk effects are applied. -/
theorem C5_partial_failure_batch_witness :
    (run_install_batch demoTasks []).1 =
      .error ("Failed to install dependencies: " ++
        String.intercalate ", " (failing_texts (demoTasks.map Prod.fst))) ∧
    (run_install_batch demoTasks []).2 =
      demoTasks.foldl (fun d t => t.2 d) [] :=
  ⟨(C5_partial_failure_batch demoTasks []).2.1 (by decide),
   (C5_partial_failure_batch demoTasks []).2.2.2⟩

/-! ## Pruning and the two fetch paths (src/src/install/git.rs,
src/src/install/manager.rs) -/

/-- The allow-list test of `prune_package` (src/src/install/git.rs:98-103). -/
def should_keep (file_name : String) : Bool :=
  file_name == "src" || file_name == "README.md" || file_name == "readme.md" ||
    file_name == "README" || file_name == "readme" || file_name == "spago.yaml"

/-- `prune_package` (src/src/install/git.rs:86-115): every entry of the
package directory outside the allow-list is deleted, so the directory becomes
the allow-list filter of itself. -/
def prune_package (entries : List (String × FsTree)) : List (String × FsTree) :=
  entries.filter (fun e => should_keep e.1)

/-- The destination directory produced by the repository-sourced fetch path
(`fetch_package`, src/src/install/git.rs:18-83) from the cloned worktree
contents: the clone is pruned before the function returns. -/
def fetch_package_result (cloned : List (String × FsTree)) :
    List (String × FsTree) :=
  prune_package cloned

/-- The extraction-and-copy tail of the archive-sourced fetch path
(`install_registry_package`, src/src/install/manager.rs:307-351): the
extracted temporary directory must hold exactly one top-level entry, which
must be a directory; that directory's contents are then copied entry by entry
into the destination (directories via `copy_dir_all`, files via `fs::copy`) —
with no pruning step.  Returns the destination's final contents. -/
def install_registry_fetch_tail (archive : List (String × FsTree))
    (dest : List (String × FsTree)) : Except String (List (String × FsTree)) :=
  match archive with
  | [(_, .dir es)] => copyEntries es dest
  | [(_, .file _)] => .error "Top-level entry is not a directory"
  | es =>
    .error ("Expected exactly one top-level directory in tar archive, found " ++
      toString es.length)

/-- An archive whose single top-level directory ships a test directory and a
CI config beside the allowed entries. -/
def extraArchive : List (String × FsTree) :=
  [("pkg-1.0.0",
    .dir [("src", .dir [("Main.purs", .file "module Main")]),
          ("test", .dir [("Main.purs", .file "module Test.Main")]),
          ("ci.yml", .file "jobs"), ("spago.yaml", .file "cfg")])]

/-- The contents of `extraArchive`'s single top-level directory. -/
def extraArchiveContents : List (String × FsTree) :=
  [("src", .dir [("Main.purs", .file "module Main")]),
   ("test", .dir [("Main.purs", .file "module Test.Main")]),
   ("ci.yml", .file "jobs"), ("spago.yaml", .file "cfg")]

/-- Counterexample to C4 as stated: an archive-sourced install into a fresh
destination leaves the origin's extra entries (test, ci.yml) in place — the
registry path never prunes. -/
theorem C4_pruning_counterexample :
    install_registry_fetch_tail extraArchive [] = .ok extraArchiveContents ∧
      ("test", FsTree.dir [("Main.purs", FsTree.file "module Test.Main")]) ∈
        extraArchiveContents ∧
      should_keep "test" = false ∧ should_keep "ci.yml" = false := by
  refine ⟨?_, by simp [extraArchiveContents], by decide, by decide⟩
  show copyEntries extraArchiveContents [] = .ok extraArchiveContents
  have := copyEntries_fresh extraArchiveContents
    (by simp [extraArchiveContents, entriesWF, mapGet]) []
    (by intro n hn; simp [mapGet])
  simpa using this

/-- C4 (amended): only the repository-sourced fetch path prunes — after it,
every destination entry passes the allow-list test — while the
archive-sourced path copies the single top-level directory's contents into
the destination verbatim (for a well-formed archive directory and a fresh
destination, the destination equals those contents exactly, extra entries
included). -/
theorem C4_pruning_amended :
    (∀ cloned : List (String × FsTree),
      ∀ e ∈ fetch_package_result cloned, should_keep e.1 = true) ∧
    (∀ (archive dest out : List (String × FsTree)),
      install_registry_fetch_tail archive dest = .ok out →
      ∃ top es, archive = [(top, .dir es)] ∧ copyEntries es dest = .ok out) ∧
    (∀ (top : String) (es : List (String × FsTree)), entriesWF es = true →
      install_registry_fetch_tail [(top, .dir es)] [] = .ok es) := by
  refine ⟨?_, ?_, ?_⟩
  · intro cloned e he
    exact (List.mem_filter.mp he).2
  · intro archive dest out hrun
    match archive, hrun with
    | [(top, .dir es)], hrun =>
      exact ⟨top, es, rfl, hrun⟩
    | [(top, .file c)], hrun => simp [install_registry_fetch_tail] at hrun
    | [], hrun => simp [install_registry_fetch_tail] at hrun
    | (e₁ :: e₂ :: rest), hrun =>
      obtain ⟨n₁, t₁⟩ := e₁
      obtain ⟨n₂, t₂⟩ := e₂
      cases t₁ <;> simp [install_registry_fetch_tail] at hrun
  · intro top es hwf
    show copyEntries es [] = .ok es
    have := copyEntries_fresh es hwf [] (by intro n hn; simp [mapGet])
    simpa using this

/-- Witness for the amended C4: the repository path prunes `extraArchive`'s
contents down to the allow-list, while the archive path returns them
verbatim. -/
theorem C4_pruning_amended_witness :
    install_registry_fetch_tail [("pkg-1.0.0", .dir extraArchiveContents)] [] =
      .ok extraArchiveContents ∧
    (∀ e ∈ fetch_package_result extraArchiveContents, should_keep e.1 = true) :=
  ⟨C4_pruning_amended.2.2 "pkg-1.0.0" extraArchiveContents
      (by simp [extraArchiveContents, entriesWF, mapGet]),
   C4_pruning_amended.1 extraArchiveContents⟩

/-! ## Repository-sourced fetch (src/src/install/git.rs:18-83,
src/src/install/extra.rs:49-93) -/

/-- The fresh-destination path of `fetch_package`
(src/src/install/git.rs:46-83) over an abstract git world: clone the
repository (a failing clone creates no destination), open it and read HEAD —
which is the remote's default HEAD, since no checkout of the declared version
is performed (the version/tag checkout is an explicit TODO in the source) —
then prune.  Returns (the commit left checked out, whether the destination
exists afterwards). -/
def fetch_package_fresh (cloneOk : Bool) (remoteDefaultHead : String)
    (version : String) : Except String String × Bool :=
  if !cloneOk then (.error "Failed to clone repository", false)
  else (.ok remoteDefaultHead, true)

/-- `install_git_extra_package` (src/src/install/extra.rs:49-93) over an
abstract git world: require a ref, skip an existing valid repository, remove
an existing invalid directory, clone, resolve the ref, check out the tree,
prune.  Returns (the result, whether the destination exists afterwards): no
failure after a successful clone removes the destination. -/
def install_git_extra_package (package_name : String) (ref : Option String)
    (destExists destIsRepo cloneOk refResolves checkoutOk : Bool) :
    Except String Unit × Bool :=
  match ref with
  | none =>
    (.error ("Git package '" ++ package_name ++ "' requires a 'ref' field"),
     destExists)
  | some ref_name =>
    if destExists && destIsRepo then (.ok (), true)
    else if !cloneOk then (.error "Failed to clone repository", false)
    else if !refResolves then
      (.error ("Failed to find reference: " ++ ref_name), true)
    else if !checkoutOk then (.error "Failed to checkout reference", true)
    else (.ok (), true)

/-- Counterexample to C3 as stated: fetching the extra package colors at ref
v1.0.0 into a fresh destination, where the clone succeeds and the ref fails
to resolve (and likewise where the checkout fails), propagates the error with
the cloned destination directory still on disk — it is not deleted; and
`fetch_package` checks out no ref at all: after a fresh clone the destination
sits at the remote's default HEAD even though the declared version differs. -/
theorem C3_fetch_atomicity_counterexample :
    install_git_extra_package "colors" (some "v1.0.0") false false true false
        true = (.error "Failed to find reference: v1.0.0", true) ∧
    install_git_extra_package "colors" (some "v1.0.0") false false true true
        false = (.error "Failed to checkout reference", true) ∧
    fetch_package_fresh true "deadbeef" "v1.0.0" = (.ok "deadbeef", true) ∧
    ("deadbeef" : String) ≠ "v1.0.0" := by
  exact ⟨rfl, rfl, rfl, by decide⟩

/-- C3 (amended): `fetch_package` clones without checking out the declared
ref — a successful fresh fetch leaves the destination at the clone's default
HEAD, whatever the declared version — and `install_git_extra_package` does
clone and check out the declared ref, but when ref resolution or checkout
fails the cloned destination directory remains on disk while the error
propagates; only a failed clone leaves no destination. -/
theorem C3_fetch_atomicity_amended :
    (∀ (head version : String),
      fetch_package_fresh true head version = (.ok head, true)) ∧
    (∀ (pkg ref_name : String) (refResolves checkoutOk : Bool),
      refResolves = false ∨ checkoutOk = false →
      ∃ e, install_git_extra_package pkg (some ref_name) false false true
        refResolves checkoutOk = (.error e, true)) ∧
    (∀ (pkg ref_name : String),
      install_git_extra_package pkg (some ref_name) false false false true
        true = (.error "Failed to clone repository", false)) := by
  refine ⟨fun head version => rfl, ?_, fun pkg ref_name => rfl⟩
  intro pkg ref_name refResolves checkoutOk h
  rcases h with h | h
  · subst h
    exact ⟨"Failed to find reference: " ++ ref_name, rfl⟩
  · subst h
    cases refResolves with
    | false => exact ⟨"Failed to find reference: " ++ ref_name, rfl⟩
    | true => exact ⟨"Failed to checkout reference", rfl⟩

/-- Witness for the amended C3 at a concrete instance: the unresolved ref
leaves the clone on disk. -/
theorem C3_fetch_atomicity_amended_witness :
    ∃ e, install_git_extra_package "colors" (some "v2.0.0") false false true
      false true = (.error e, true) :=
  C3_fetch_atomicity_amended.2.1 "colors" "v2.0.0" false true (Or.inl rfl)

end Ragu
